import Mathlib

/-!
Verification of the Contextual Message Resolution Engine of the `dive`
Obsidian plugin (`src/main.ts`) against its natural-language specification.

The TypeScript source is shallowly embedded: strings are Lean `String`s
(processed as `List Char`), a JavaScript `Date` is modelled by the number of
calendar days since 1970-01-01 (an `Int`; the engine only ever uses the
year/month/day components), and the vault is a list of documents, each a
basename paired with its content.  Reads from the vault are modelled as always
succeeding (the source catches per-file read errors and skips the file, a path
none of the verified claims depends on).  JavaScript regular-expression calls
are embedded by a small backtracking engine (`RE`/`reRun`) that enumerates
match suffixes in the backtracking priority order JS uses (ordered
alternation, greedy quantifiers, leftmost match), plus hand-rolled scanners
for the global-replace/global-exec loops.  Character classes follow the ASCII
behaviour of the JS originals; every string the theorems evaluate is ASCII.
-/

/-- ASCII lower-casing, the behaviour of JS `toLowerCase` on ASCII text. -/
def lowChar (c : Char) : Char :=
  if 'A' ≤ c ∧ c ≤ 'Z' then Char.ofNat (c.toNat + 32) else c

/-- Lower-case every character of a string. -/
def lowStr (s : String) : String := String.mk (s.data.map lowChar)

/-- JS `\s` on the ASCII range: space, tab, line feed, vertical tab, form
feed, carriage return. -/
def isWs (c : Char) : Bool :=
  c = ' ' ∨ c = '\t' ∨ c = '\n' ∨ c = Char.ofNat 11 ∨ c = Char.ofNat 12 ∨ c = '\r'

/-- JS `\d`. -/
def isDig (c : Char) : Bool := '0' ≤ c ∧ c ≤ '9'

/-- JS `\w`: ASCII letters, digits and underscore. -/
def isWord (c : Char) : Bool :=
  ('a' ≤ c ∧ c ≤ 'z') ∨ ('A' ≤ c ∧ c ≤ 'Z') ∨ ('0' ≤ c ∧ c ≤ '9') ∨ c = '_'

/-- JS `String.prototype.trim` (ASCII whitespace). -/
def jsTrimL (l : List Char) : List Char :=
  (((l.dropWhile (fun c => isWs c)).reverse).dropWhile (fun c => isWs c)).reverse

/-- `trim` on strings. -/
def jsTrim (s : String) : String := String.mk (jsTrimL s.data)

/-- Does `l` start with `p`? -/
def startsWithL : List Char → List Char → Bool
  | _, [] => true
  | [], _ :: _ => false
  | c :: l, d :: p => c = d ∧ startsWithL l p

/-- JS `String.prototype.includes`: substring occurrence. -/
def containsSub (l p : List Char) : Bool :=
  match l with
  | [] => startsWithL [] p
  | _ :: rest => startsWithL l p || containsSub rest p

/-- Value of a decimal digit character. -/
def digVal (c : Char) : Nat := c.toNat - '0'.toNat

/-- Decimal digit character of `n % 10`. -/
def digChar (n : Nat) : Char := Char.ofNat ('0'.toNat + n % 10)

/-- Decimal digits of a natural number, most significant first; the fuel
argument (any bound on the digit count, here the number itself plus one)
keeps the recursion structural. -/
def natDigitsAux : Nat → Nat → List Char
  | 0, _ => []
  | fuel + 1, n =>
      if n < 10 then [digChar n]
      else natDigitsAux fuel (n / 10) ++ [digChar (n % 10)]

/-- Decimal digits of a natural number, most significant first. -/
def natDigits (n : Nat) : List Char := natDigitsAux (n + 1) n

/-- JS `String(i)` for an integer. -/
def intToStr (i : Int) : String :=
  if i < 0 then String.mk ('-' :: natDigits i.natAbs) else String.mk (natDigits i.natAbs)

/-- JS `String(x).padStart(2, "0")`. -/
def padStart2 (s : String) : String :=
  if s.data.length < 2 then String.mk ('0' :: s.data) else s

/-- Numeric value of a run of decimal digit characters. -/
def digitsVal (l : List Char) : Nat := l.foldl (fun a c => a * 10 + digVal c) 0

/-- JS `parseInt(s)` restricted to the call sites of the source, where the
regex guards guarantee the argument is a nonempty run of decimal digits. -/
def parseIntDec (s : String) : Int := Int.ofNat (digitsVal s.data)

/-- Is `y` a leap year (proleptic Gregorian, as the JS `Date` object). -/
def isLeap (y : Int) : Bool := (y % 4 = 0 ∧ y % 100 ≠ 0) ∨ y % 400 = 0

/-- Days in month `m` (1-12) of year `y`. -/
def daysInMonth (y m : Int) : Int :=
  if m = 1 then 31 else if m = 2 then (if isLeap y then 29 else 28)
  else if m = 3 then 31 else if m = 4 then 30 else if m = 5 then 31
  else if m = 6 then 30 else if m = 7 then 31 else if m = 8 then 31
  else if m = 9 then 30 else if m = 10 then 31 else if m = 11 then 30
  else 31

/-- Days since 1970-01-01 of the civil date `y-m-d` (m in 1..12), the
standard `days_from_civil` algorithm; agrees with the day count inside the
JS `Date` time value. -/
def daysFromCivil (y m d : Int) : Int :=
  let y2 : Int := if m ≤ 2 then y - 1 else y
  let era : Int := (if 0 ≤ y2 then y2 else y2 - 399) / 400
  let yoe : Int := y2 - era * 400
  let mp : Int := (m + 9) % 12
  let doy : Int := (153 * mp + 2) / 5 + d - 1
  let doe : Int := yoe * 365 + yoe / 4 - yoe / 100 + doy
  era * 146097 + doe - 719468

/-- Inverse of `daysFromCivil`: the civil `(year, month, day)` of a day
count (the standard `civil_from_days` algorithm). -/
def civilFromDays (z0 : Int) : Int × Int × Int :=
  let z : Int := z0 + 719468
  let era : Int := (if 0 ≤ z then z else z - 146096) / 146097
  let doe : Int := z - era * 146097
  let yoe : Int := (doe - doe / 1460 + doe / 36524 - doe / 146096) / 365
  let y : Int := yoe + era * 400
  let doy : Int := doe - (365 * yoe + yoe / 4 - yoe / 100)
  let mp : Int := (5 * doy + 2) / 153
  let d : Int := doy - (153 * mp + 2) / 5 + 1
  let m : Int := mp + (if mp < 3 then 3 else -9)
  (y + (if m ≤ 2 then 1 else 0), m, d)

/-- `date.getFullYear()` for a day-count date. -/
def getFullYear (t : Int) : Int := (civilFromDays t).1

/-- `date.getMonth() + 1` (1-based month) for a day-count date. -/
def getMonth1 (t : Int) : Int := (civilFromDays t).2.1

/-- `date.getDate()` for a day-count date. -/
def getDate (t : Int) : Int := (civilFromDays t).2.2

/-- `date.getDay()`: weekday, Sunday = 0.  1970-01-01 (day 0) was a
Thursday (4). -/
def getDay (t : Int) : Int := (t + 4) % 7

/-- ECMAScript year coercion of `new Date(y, m, d)`: two-digit years denote
1900 + y. -/
def jsFullYear (y : Int) : Int := if 0 ≤ y ∧ y ≤ 99 then 1900 + y else y

/-- Day count of JS `new Date(y, m0, d)` with 0-based month `m0`: month and
day overflow roll over into adjacent months and years (ECMAScript
`MakeDay`). -/
def jsMakeDate (y m0 d : Int) : Int :=
  let yf : Int := jsFullYear y
  let ym : Int := yf * 12 + m0
  daysFromCivil (ym.ediv 12) (ym.emod 12 + 1) 1 + (d - 1)

/-- The backtick character (avoids a literal backtick in the file). -/
def btick : Char := Char.ofNat 96

/-- Sentence punctuation of the source: the class `[.,;!?]`. -/
def isPunct (c : Char) : Bool :=
  c = '.' ∨ c = ',' ∨ c = ';' ∨ c = '!' ∨ c = '?'

/-- Character class of a bare mention in `extractFileReferences`: every
character except whitespace, `@`, backtick and the sentence punctuation. -/
def bareOk (c : Char) : Bool :=
  ¬ (isWs c ∨ c = '@' ∨ c = btick ∨ isPunct c)

/-- Scanner state for the global regex `@{backtick}([^{backtick}]+){backtick}`
of `extractFileReferences`. -/
inductive BkMode where
  | idle
  | sawAt
  | inSpan (acc : List Char)

/-- Left-to-right global scan collecting the (untrimmed) span contents of
every backtick-wrapped mention, in occurrence order; equivalent to the
`while (backtick_regex.exec(text))` loop of the source. -/
def bkStep : BkMode → List Char → List (List Char)
  | .idle, [] => []
  | .sawAt, [] => []
  | .inSpan _, [] => []
  | .idle, c :: l => if c = '@' then bkStep .sawAt l else bkStep .idle l
  | .sawAt, c :: l =>
      if c = btick then bkStep (.inSpan []) l
      else if c = '@' then bkStep .sawAt l else bkStep .idle l
  | .inSpan acc, c :: l =>
      if c = btick then
        if acc = [] then bkStep .idle l else acc.reverse :: bkStep .idle l
      else bkStep (.inSpan (c :: acc)) l

/-- Scanner state for the global regex of bare mentions. -/
inductive BareMode where
  | idle
  | sawAt
  | run (acc : List Char)

/-- Left-to-right global scan collecting every bare mention token, in
occurrence order; equivalent to the `while (simple_regex.exec(text))` loop
of the source (`@` followed by a maximal nonempty run of `bareOk`
characters). -/
def bareStep : BareMode → List Char → List (List Char)
  | .idle, [] => []
  | .sawAt, [] => []
  | .run acc, [] => [acc.reverse]
  | .idle, c :: l => if c = '@' then bareStep .sawAt l else bareStep .idle l
  | .sawAt, c :: l =>
      if bareOk c then bareStep (.run [c]) l
      else if c = '@' then bareStep .sawAt l else bareStep .idle l
  | .run acc, c :: l =>
      if bareOk c then bareStep (.run (c :: acc)) l
      else acc.reverse :: (if c = '@' then bareStep .sawAt l else bareStep .idle l)

/-- The insertion step of a JS `Set` read back with `Array.from`: append the
element unless already present. -/
def addToSet (acc : List String) (x : String) : List String :=
  if x ∈ acc then acc else acc ++ [x]

/-- `extractFileReferences` (src/main.ts:1438): backtick-wrapped mentions
first (trimmed, dropped when the trim is empty), then bare mentions, all
collected into an insertion-ordered set. -/
def extractFileReferences (text : String) : List String :=
  let bk := (bkStep .idle text.data).foldl
    (fun acc sp =>
      let filename := jsTrim (String.mk sp)
      if filename = "" then acc else addToSet acc filename) []
  (bareStep .idle text.data).foldl (fun acc t => addToSet acc (String.mk t)) bk

/-- The two token streams of `extractFileReferences` in the order the source
inserts them: trimmed nonempty backtick spans, then bare tokens. -/
def mentionTokensInOrder (text : String) : List String :=
  ((bkStep .idle text.data).map (fun sp => jsTrim (String.mk sp))).filter
    (fun s => s ≠ "")
  ++ (bareStep .idle text.data).map String.mk

/-- Order-preserving de-duplication, keeping first occurrences. -/
def dedupAux (seen : List String) : List String → List String
  | [] => []
  | x :: l => if x ∈ seen then dedupAux seen l else x :: dedupAux (x :: seen) l

/-- De-duplicate a list keeping the first occurrence of each element. -/
def dedupKeepFirst (l : List String) : List String := dedupAux [] l

/-- Scanner state for the global replace of `@{backtick}[^{backtick}]+{backtick}`
by the empty string. -/
inductive RmBkMode where
  | idle
  | sawAt
  | inSpan (acc : List Char)

/-- `text.replace(backtick_mention_regex, "")`: delete every backtick-wrapped
mention, leaving unmatched text (including unclosed `@`-backtick prefixes)
untouched. -/
def rmBkStep : RmBkMode → List Char → List Char
  | .idle, [] => []
  | .sawAt, [] => ['@']
  | .inSpan acc, [] => '@' :: btick :: acc.reverse
  | .idle, c :: l => if c = '@' then rmBkStep .sawAt l else c :: rmBkStep .idle l
  | .sawAt, c :: l =>
      if c = btick then rmBkStep (.inSpan []) l
      else if c = '@' then '@' :: rmBkStep .sawAt l
      else '@' :: c :: rmBkStep .idle l
  | .inSpan acc, c :: l =>
      if c = btick then
        if acc = [] then '@' :: btick :: btick :: rmBkStep .idle l
        else rmBkStep .idle l
      else rmBkStep (.inSpan (c :: acc)) l

/-- Token boundary of the bare-removal regex lookahead `(?=\s|$|[.,;!?])`. -/
def boundaryAfter : List Char → Bool
  | [] => true
  | c :: _ => isWs c ∨ isPunct c

/-- `acc.replace(new RegExp("@" + ref + lookahead, "g"), "")`: delete every
occurrence of `@ref` that sits at a token boundary; the lookahead character
is not consumed. -/
def rmBareAux (ref : List Char) : Nat → List Char → List Char
  | 0, l => l
  | _, [] => []
  | fuel + 1, c :: l =>
      if c = '@' ∧ startsWithL l ref ∧ boundaryAfter (l.drop ref.length) then
        rmBareAux ref fuel (l.drop ref.length)
      else c :: rmBareAux ref fuel l

/-- `acc.replace(new RegExp("@" + ref + lookahead, "g"), "")` continued:
every step consumes at least one character, so a fuel of the input length
plus one makes the recursion structural without changing the result. -/
def rmBare (ref : List Char) (l : List Char) : List Char :=
  rmBareAux ref (l.length + 1) l

/-- `replace(/\s+/g, " ")`: collapse every whitespace run to one space.  The
flag records whether the previous character was whitespace. -/
def collapseWs2 (prevWs : Bool) : List Char → List Char
  | [] => []
  | c :: l =>
      if isWs c then
        if prevWs then collapseWs2 true l else ' ' :: collapseWs2 true l
      else c :: collapseWs2 false l

/-- Stable insertion (descending by length) realising the stable JS
`sort((a, b) => b.length - a.length)`. -/
def insLenDesc (x : String) : List String → List String
  | [] => [x]
  | y :: l => if x.data.length ≤ y.data.length then y :: insLenDesc x l
              else x :: y :: l

/-- Stable sort by descending length (JS `Array.prototype.sort` is stable,
and any two stable sorts of the same preorder agree). -/
def sortLenDesc (l : List String) : List String :=
  l.foldl (fun acc x => insLenDesc x acc) []

/-- `removeFileReferences` (src/main.ts:1460): remove backtick-wrapped
mentions, then remove bare occurrences of the extracted tokens
longest-token-first at token boundaries — skipping any token that also
occurs backtick-wrapped in the original text — then collapse whitespace and
trim. -/
def removeFileReferences (text : String) : String :=
  let cleaned := rmBkStep .idle text.data
  let refs := sortLenDesc (extractFileReferences text)
  let cleaned2 := refs.foldl
    (fun acc ref =>
      if containsSub text.data ('@' :: btick :: ref.data ++ [btick]) then acc
      else rmBare ref.data acc) cleaned
  String.mk (jsTrimL (collapseWs2 false cleaned2))

/-- `replace(/[^\w\s]/g, "")`: keep word characters and whitespace only. -/
def stripNonWordL (l : List Char) : List Char :=
  l.filter (fun c => isWord c ∨ isWs c)

mutual

/-- Field collection of JS `split(/\s+/)`: accumulate the current field until
whitespace. -/
def splitWsAux (cur : List Char) : List Char → List (List Char)
  | [] => [cur.reverse]
  | c :: l => if isWs c then cur.reverse :: splitWsSkip l else splitWsAux (c :: cur) l

/-- Separator consumption of JS `split(/\s+/)`: a maximal whitespace run is
one separator; a run ending the string yields a trailing empty field. -/
def splitWsSkip : List Char → List (List Char)
  | [] => [[]]
  | c :: l => if isWs c then splitWsSkip l else splitWsAux [c] l

end

/-- JS `split(/\s+/)` (leading and trailing whitespace produce empty
fields, exactly as in JS). -/
def splitWsJS (l : List Char) : List (List Char) := splitWsAux [] l

/-- The fixed stopword list of `analyze_conversation_context`. -/
def stopWords : List String :=
  ["what", "when", "where", "which", "this", "that", "there", "their", "about"]

/-- One step of `word_counts[word] = (word_counts[word] || 0) + 1` on an
insertion-ordered association list (the property table of a JS object). -/
def bumpCount (m : List (String × Nat)) (w : String) : List (String × Nat) :=
  match m with
  | [] => [(w, 1)]
  | (k, v) :: rest => if k = w then (k, v + 1) :: rest else (k, v) :: bumpCount rest w

/-- Is the string a canonical array-index property key (nonempty, decimal,
no leading zero unless it is `0`, value below `2^32 - 1`)?  JS objects
enumerate these keys first, in ascending numeric order. -/
def isArrayIdxKey (s : String) : Bool :=
  s.data ≠ [] ∧ s.data.all (fun c => isDig c) ∧
  (s = "0" ∨ s.data.head? ≠ some '0') ∧ digitsVal s.data < 4294967295

/-- Insertion step for ascending numeric key order. -/
def insNumAsc (x : String × Nat) : List (String × Nat) → List (String × Nat)
  | [] => [x]
  | y :: l =>
      if digitsVal y.1.data ≤ digitsVal x.1.data then y :: insNumAsc x l
      else x :: y :: l

/-- `Object.entries` of a JS object whose keys were inserted in list order:
array-index keys first in ascending numeric order, then the remaining keys
in insertion order. -/
def jsEntries (m : List (String × Nat)) : List (String × Nat) :=
  (m.filter (fun p => isArrayIdxKey p.1)).foldl (fun acc x => insNumAsc x acc) []
  ++ m.filter (fun p => ¬ isArrayIdxKey p.1)

/-- Insertion step of a stable sort descending by count (ties keep the
earlier element first, as the stable JS `sort((a, b) => b[1] - a[1])`). -/
def insCntDesc (x : String × Nat) : List (String × Nat) → List (String × Nat)
  | [] => [x]
  | y :: l => if x.2 ≤ y.2 then y :: insCntDesc x l else x :: y :: l

/-- Stable sort descending by count. -/
def sortCntDesc (l : List (String × Nat)) : List (String × Nat) :=
  l.foldl (fun acc x => insCntDesc x acc) []

/-- The filtered token stream of `analyze_conversation_context`
(src/main.ts:1665): lowercase, strip non-word characters, split on
whitespace, keep tokens longer than 3 characters that are not stopwords. -/
def contextTokens (message : String) : List String :=
  (((splitWsJS (stripNonWordL (lowStr message).data)).map String.mk).filter
      (fun w => 3 < w.data.length)).filter (fun w => ¬ w ∈ stopWords)

/-- The keyword summary of `analyze_conversation_context`: frequency count
over this turn's tokens, `Object.entries`, stable sort descending by count,
top five words. -/
def topKeywords (message : String) : List String :=
  ((sortCntDesc (jsEntries ((contextTokens message).foldl bumpCount []))).take 5).map
    (fun p => p.1)

/-- `analyze_conversation_context` result: the keyword summary joined with
a comma (the value stored in `this.conversation_context`). -/
def analyze_conversation_context (message : String) : String :=
  String.intercalate ", " (topKeywords message)

/-- Modelled from the spec (for comparison): the keyword ranking exactly as
§4.6 words it — descending by count, ties broken by first-occurrence order
in the token stream, top five — with no JS object key reordering. -/
def specTopKeywords (message : String) : List String :=
  ((sortCntDesc ((contextTokens message).foldl bumpCount [])).take 5).map
    (fun p => p.1)

/-- Bare-mention character class as §4.3 words it: everything but
whitespace, `@` and backtick (sentence punctuation is allowed inside). -/
def specBareOk (c : Char) : Bool := ¬ (isWs c ∨ c = '@' ∨ c = btick)

/-- Strip sentence punctuation from the end of a token (§4.3). -/
def stripTrailPunct (l : List Char) : List Char :=
  (l.reverse.dropWhile (fun c => isPunct c)).reverse

/-- Scanner state of the spec-modelled extractor. -/
inductive SpecExMode where
  | idle
  | sawAt
  | inSpan (acc : List Char)
  | run (acc : List Char)

/-- Modelled from the spec (§4.3): one left-to-right scan recognising both
token grammars in text order — backtick-wrapped spans used verbatim, bare
runs with trailing sentence punctuation stripped. -/
def specExStep : SpecExMode → List Char → List String
  | .idle, [] => []
  | .sawAt, [] => []
  | .inSpan _, [] => []
  | .run acc, [] => [String.mk (stripTrailPunct acc.reverse)]
  | .idle, c :: l => if c = '@' then specExStep .sawAt l else specExStep .idle l
  | .sawAt, c :: l =>
      if c = btick then specExStep (.inSpan []) l
      else if specBareOk c then specExStep (.run [c]) l
      else if c = '@' then specExStep .sawAt l else specExStep .idle l
  | .inSpan acc, c :: l =>
      if c = btick then String.mk acc.reverse :: specExStep .idle l
      else specExStep (.inSpan (c :: acc)) l
  | .run acc, c :: l =>
      if specBareOk c then specExStep (.run (c :: acc)) l
      else String.mk (stripTrailPunct acc.reverse) ::
        (if c = '@' then specExStep .sawAt l else specExStep .idle l)

/-- Modelled from the spec (§4.3): extraction as an order-preserving set of
the scanned tokens, de-duplicated by exact equality, first occurrence
first. -/
def specExtractFileReferences (text : String) : List String :=
  dedupKeepFirst (specExStep .idle text.data)

/-- Modelled from the spec (§4.5): remove all backtick-wrapped mentions
verbatim, remove every remaining bare-token mention longest-token-first at a
token boundary (no token is skipped), collapse whitespace and trim. -/
def specRemoveFileReferences (text : String) : String :=
  let cleaned := rmBkStep .idle text.data
  let refs := sortLenDesc (specExtractFileReferences text)
  let cleaned2 := refs.foldl (fun acc ref => rmBare ref.data acc) cleaned
  String.mk (jsTrimL (collapseWs2 false cleaned2))

/-- Regular-expression fragments used by the temporal patterns.  Quantifiers
in the source patterns are `+`, `?` and bounded `{n,m}`, all on character
classes, so a star constructor is not needed. -/
inductive RE where
  | eps
  | cls (p : Char → Bool)
  | seq (a b : RE)
  | alt (a b : RE)
  | opt (a : RE)
  | plus (p : Char → Bool)
  | rep (p : Char → Bool) (lo hi : Nat)

/-- Length of the maximal prefix run of characters matching `p`. -/
def runLen (p : Char → Bool) : List Char → Nat
  | [] => 0
  | c :: l => if p c then runLen p l + 1 else 0

/-- Suffixes after consuming `k` characters of class `p`, for `k` from the
maximal run length down to 1 (the greedy backtracking order of `p+`). -/
def plusTails (p : Char → Bool) (l : List Char) : List (List Char) :=
  let m := runLen p l
  (List.range m).map (fun i => l.drop (m - i))

/-- Suffixes of `p{lo,hi}` in greedy backtracking order. -/
def repTails (p : Char → Bool) (lo hi : Nat) (l : List Char) : List (List Char) :=
  let m := min (runLen p l) hi
  if m < lo then [] else (List.range (m - lo + 1)).map (fun i => l.drop (m - i))

/-- All suffixes remaining after the regex matches a prefix of `l`, listed in
the JS backtracking priority order (ordered alternation, greedy
quantifiers). -/
def reRun : RE → List Char → List (List Char)
  | .eps, l => [l]
  | .cls _, [] => []
  | .cls p, c :: l => if p c then [l] else []
  | .seq a b, l => ((reRun a l).map (reRun b)).flatten
  | .alt a b, l => reRun a l ++ reRun b l
  | .opt a, l => reRun a l ++ [l]
  | .plus p, l => plusTails p l
  | .rep p lo hi, l => repTails p lo hi l

/-- Unanchored `regex.test`: does the pattern match starting at some
position (leftmost search)? -/
def reSearch (r : RE) : List Char → Bool
  | [] => ¬ (reRun r []).isEmpty
  | l@(_ :: rest) => (¬ (reRun r l).isEmpty) || reSearch r rest

/-- Literal-string regex (the patterns are matched against lowercased text,
so all literals are lowercase). -/
def litRE (s : String) : RE :=
  s.data.foldr (fun c r => .seq (.cls (fun d => d = c)) r) .eps

/-- Sequence of a list of fragments. -/
def seqL (l : List RE) : RE := l.foldr .seq .eps

/-- Ordered alternation of a nonempty list of fragments. -/
def altL (r : RE) : List RE → RE
  | [] => r
  | s :: l => .alt r (altL s l)

/-- Single-character regex. -/
def chrRE (c : Char) : RE := .cls (fun d => d = c)

/-- `\s+`. -/
def ws1 : RE := .plus isWs

/-- The apostrophe class of the source patterns: ASCII apostrophe or right
single quotation mark. -/
def aposRE : RE := .cls (fun c => c = Char.ofNat 39 ∨ c = Char.ofNat 8217)

/-- `(?:i|I)` after lowercasing: both branches are the literal `i`. -/
def iAlt : RE := altL (litRE "i") [litRE "i"]

/-- `(?:did|happened|occurred|took place)`. -/
def didAlt : RE :=
  altL (litRE "did") [litRE "happened", litRE "occurred", litRE "took place"]

/-- The `yesterday_pattern` of `check_time_related_query`
(src/main.ts:199). -/
def yesterdayRE : RE :=
  altL
    (seqL [litRE "what", ws1, didAlt, ws1, litRE "yesterday"])
    [ seqL [litRE "yesterday", .opt aposRE, litRE "s", ws1,
        altL (litRE "events") [litRE "activities", litRE "notes", litRE "happenings"]],
      seqL [litRE "tell", ws1, litRE "me", ws1, litRE "about", ws1, litRE "yesterday"],
      seqL [litRE "what", ws1, altL (litRE "was") [litRE "did"], ws1, iAlt, ws1,
        altL (litRE "doing") [litRE "working on", litRE "do"], ws1, litRE "yesterday"] ]

/-- The `today_pattern` (src/main.ts:201). -/
def todayRE : RE :=
  altL
    (seqL [litRE "what", ws1, didAlt, ws1, litRE "today"])
    [ seqL [litRE "today", .opt aposRE, litRE "s", ws1,
        altL (litRE "events") [litRE "activities", litRE "notes", litRE "happenings"]],
      seqL [litRE "tell", ws1, litRE "me", ws1, litRE "about", ws1, litRE "today"],
      seqL [litRE "what", ws1, altL (litRE "am") [litRE "was"], ws1, iAlt, ws1,
        altL (litRE "doing") [litRE "working on"], ws1, litRE "today"] ]

/-- The trigger alternation of `specific_date_pattern` (src/main.ts:203),
including the `\s+` separating it from the captured date literal. -/
def specTriggerWs : RE :=
  .seq
    (altL
      (seqL [litRE "what", ws1, didAlt, ws1, litRE "on"])
      [ seqL [litRE "tell", ws1, litRE "me", ws1, litRE "about"],
        seqL [litRE "what", ws1, litRE "was", ws1, iAlt, ws1,
          altL (litRE "doing") [litRE "working on"], ws1, litRE "on"] ])
    ws1

/-- The captured date-literal alternation of `specific_date_pattern`:
`\d{4}-\d{2}-\d{2}`, `\d{1,2}/\d{1,2}(/\d{2,4})?`,
`\d{1,2}-\d{1,2}(-\d{2,4})?`, in that order. -/
def dateLitRE : RE :=
  altL
    (seqL [.rep isDig 4 4, chrRE '-', .rep isDig 2 2, chrRE '-', .rep isDig 2 2])
    [ seqL [.rep isDig 1 2, chrRE '/', .rep isDig 1 2,
        .opt (seqL [chrRE '/', .rep isDig 2 4])],
      seqL [.rep isDig 1 2, chrRE '-', .rep isDig 1 2,
        .opt (seqL [chrRE '-', .rep isDig 2 4])] ]

/-- Exec of `specific_date_pattern` anchored at the current position: the
first (in backtracking priority) trigger suffix from which the date literal
matches, returning the captured literal. -/
def specDateExecFrom (l : List Char) : Option (List Char) :=
  (reRun specTriggerWs l).findSome? (fun l2 =>
    match reRun dateLitRE l2 with
    | [] => none
    | l3 :: _ => some (l2.take (l2.length - l3.length)))

/-- Unanchored exec of `specific_date_pattern`: leftmost match, returning
the captured date literal (`match[1]`). -/
def specDateExec : List Char → Option (List Char)
  | [] => none
  | l@(_ :: rest) =>
      match specDateExecFrom l with
      | some c => some c
      | none => specDateExec rest

/-- The optional leading group of `day_of_week_pattern` (src/main.ts:205)
followed by the mandatory `\s+`. -/
def dayFrontRE : RE :=
  .seq
    (.opt (seqL [litRE "what", ws1, didAlt, ws1,
      altL (litRE "on") [litRE "last", litRE "this"]]))
    ws1

/-- The optional captured prefix group `((?:last|this|on)\s+)?` — the
present branch. -/
def dayPrefixRE : RE :=
  .seq (altL (litRE "last") [litRE "this", litRE "on"]) ws1

/-- The weekday-name alternation (capture group 2). -/
def dayNameRE : RE :=
  altL (litRE "monday") [litRE "tuesday", litRE "wednesday", litRE "thursday",
    litRE "friday", litRE "saturday", litRE "sunday"]

/-- Exec of `day_of_week_pattern` anchored at the current position,
returning (`match[1]`, `match[2]`): the prefix capture (with its trailing
whitespace) if the present branch of the optional group matched, and the
weekday capture. -/
def dayExecFrom (l : List Char) : Option (Option (List Char) × List Char) :=
  (reRun dayFrontRE l).findSome? (fun l2 =>
    match (reRun dayPrefixRE l2).findSome? (fun l3 =>
      match reRun dayNameRE l3 with
      | [] => none
      | l4 :: _ =>
          some (some (l2.take (l2.length - l3.length)),
            l3.take (l3.length - l4.length))) with
    | some res => some res
    | none =>
        match reRun dayNameRE l2 with
        | [] => none
        | l4 :: _ => some (none, l2.take (l2.length - l4.length)))

/-- Unanchored exec of `day_of_week_pattern`: leftmost match. -/
def dayExec : List Char → Option (Option (List Char) × List Char)
  | [] => none
  | l@(_ :: rest) =>
      match dayExecFrom l with
      | some c => some c
      | none => dayExec rest

/-- Anchored shape of `/^\d{4}-\d{2}-\d{2}$/`. -/
def isoShapeL : List Char → Bool
  | [a, b, c, d, e, f, g, h, i, j] =>
      isDig a ∧ isDig b ∧ isDig c ∧ isDig d ∧ e = '-' ∧
      isDig f ∧ isDig g ∧ h = '-' ∧ isDig i ∧ isDig j
  | _ => false

/-- `new Date("YYYY-MM-DD")`: the ISO date-only form parses to UTC midnight
of that calendar date when the components denote a real calendar date, and
to an invalid date (`NaN`) otherwise. -/
def isoToDays : List Char → Option Int
  | [a, b, c, d, _, f, g, _, i, j] =>
      let y : Int := Int.ofNat (digitsVal [a, b, c, d])
      let m : Int := Int.ofNat (digitsVal [f, g])
      let dd : Int := Int.ofNat (digitsVal [i, j])
      if 1 ≤ m ∧ m ≤ 12 ∧ 1 ≤ dd ∧ dd ≤ daysInMonth y m then
        some (daysFromCivil y m dd)
      else none
  | _ => none

/-- `String.prototype.split` on a single separator character. -/
def splitOnChar (sep : Char) : List Char → List (List Char)
  | [] => [[]]
  | c :: l =>
      if c = sep then [] :: splitOnChar sep l
      else
        match splitOnChar sep l with
        | [] => [[c]]
        | f :: rest => (c :: f) :: rest

/-- Anchored shape of `/^\d{1,2}sep\d{1,2}sep\d{2,4}$/`, phrased over
`splitOnChar`: exactly three all-digit fields of widths 1-2, 1-2 and 2-4. -/
def mdyShape (sep : Char) (l : List Char) : Bool :=
  match splitOnChar sep l with
  | [p1, p2, p3] =>
      p1.all (fun c => isDig c) ∧ p2.all (fun c => isDig c) ∧ p3.all (fun c => isDig c) ∧
      1 ≤ p1.length ∧ p1.length ≤ 2 ∧ 1 ≤ p2.length ∧ p2.length ≤ 2 ∧
      2 ≤ p3.length ∧ p3.length ≤ 4
  | _ => false

/-- The `M sep D sep Y` branch body of `parse_date_string`: two-digit years
become `2000 + yy`, and the components go through `new Date(year, m-1, d)`,
which rolls out-of-range values over into adjacent months and years. -/
def mdyToDays (sep : Char) (l : List Char) : Int :=
  match splitOnChar sep l with
  | [p1, p2, p3] =>
      let year : Int :=
        if p3.length = 2 then 2000 + Int.ofNat (digitsVal p3)
        else Int.ofNat (digitsVal p3)
      jsMakeDate year (Int.ofNat (digitsVal p1) - 1) (Int.ofNat (digitsVal p2))
  | _ => 0

/-- `parse_date_string` (src/main.ts:242): three anchored shapes tried in
order; the final `isNaN` check turns an invalid ISO literal into `null`,
while the numeric-constructor branches always produce a (rolled-over)
date. -/
def parse_date_string (date_str : String) : Option Int :=
  if isoShapeL date_str.data then isoToDays date_str.data
  else if mdyShape '/' date_str.data then some (mdyToDays '/' date_str.data)
  else if mdyShape '-' date_str.data then some (mdyToDays '-' date_str.data)
  else none

/-- The weekday-name table of `get_date_for_day_of_week`. -/
def daysList : List String :=
  ["sunday", "monday", "tuesday", "wednesday", "thursday", "friday", "saturday"]

/-- Index search with a running counter (JS `Array.prototype.indexOf`,
`none` for -1). -/
def idxAux : List String → Nat → String → Option Nat
  | [], _, _ => none
  | x :: l, i, s => if x = s then some i else idxAux l (i + 1) s

/-- Weekday index of a (lowercased) day name, Sunday = 0. -/
def dayIndex (s : String) : Option Nat := idxAux daysList 0 s

/-- `get_date_for_day_of_week` (src/main.ts:262), over day-count dates. -/
def get_date_for_day_of_week (today : Int) (day_name pfx : String) : Int :=
  match dayIndex (lowStr day_name) with
  | none => today
  | some k =>
      let today_day := getDay today
      let target_day : Int := (k : Int)
      let diff : Int :=
        if pfx = "this" then
          if target_day - today_day < 0 then target_day - today_day + 7
          else target_day - today_day
        else
          if 0 ≤ target_day - today_day then target_day - today_day - 7
          else target_day - today_day
      today + diff

/-- A vault document: basename and (lazily read, here materialised)
content. -/
structure Doc where
  name : String
  content : String
deriving DecidableEq, Repr

/-- `Map.prototype.set` on an insertion-ordered association list: a later
binding of the same key overwrites in place. -/
def setAssoc (m : List (String × Doc)) (k : String) (v : Doc) : List (String × Doc) :=
  match m with
  | [] => [(k, v)]
  | (k2, v2) :: rest =>
      if k2 = k then (k2, v) :: rest else (k2, v2) :: setAssoc rest k v

/-- The lowercased-basename file map of `find_daily_note`
(src/main.ts:306). -/
def fileMap (corpus : List Doc) : List (String × Doc) :=
  corpus.foldl (fun m f => setAssoc m (lowStr f.name) f) []

/-- `Map.prototype.get`. -/
def lookupAssoc (m : List (String × Doc)) (k : String) : Option Doc :=
  match m with
  | [] => none
  | (k2, v) :: rest => if k2 = k then some v else lookupAssoc rest k

/-- The candidate basenames of `find_daily_note` (src/main.ts:289), in
source order: `YYYY-MM-DD`, `MM-DD-YYYY`, `daily/YYYY-MM-DD`,
`journal/YYYY-MM-DD`. -/
def dailyFormats (t : Int) : List String :=
  let iso := intToStr (getFullYear t) ++ "-" ++ padStart2 (intToStr (getMonth1 t))
    ++ "-" ++ padStart2 (intToStr (getDate t))
  [iso,
   padStart2 (intToStr (getMonth1 t)) ++ "-" ++ padStart2 (intToStr (getDate t))
     ++ "-" ++ intToStr (getFullYear t),
   "daily/" ++ iso,
   "journal/" ++ iso]

/-- `find_daily_note` (src/main.ts:285): case-insensitive exact lookup of
each candidate in order; first hit wins; `null` when none matches.  Reads
are modelled as always succeeding. -/
def find_daily_note (t : Int) (corpus : List Doc) : Option Doc :=
  (dailyFormats t).findSome? (fun fmt => lookupAssoc (fileMap corpus) (lowStr fmt))

/-- `yesterday_pattern.test(query)` (case-insensitive). -/
def yesterday_test (query : String) : Bool := reSearch yesterdayRE (lowStr query).data

/-- `today_pattern.test(query)` (case-insensitive). -/
def today_test (query : String) : Bool := reSearch todayRE (lowStr query).data

/-- `query.match(specific_date_pattern)` — the captured date literal
(`match[1]`); `specific_date_pattern.test(query)` is its `isSome`. -/
def specific_date_capture (query : String) : Option String :=
  (specDateExec (lowStr query).data).map String.mk

/-- `query.match(day_of_week_pattern)` — (`match[1]`, `match[2]`);
`day_of_week_pattern.test(query)` is its `isSome`. -/
def day_of_week_match (query : String) : Option (Option String × String) :=
  (dayExec (lowStr query).data).map
    (fun pr => (pr.1.map String.mk, String.mk pr.2))

/-- The `target_date` selection of `check_time_related_query`
(src/main.ts:207): the four categories in the fixed if/else-if priority
order. -/
def timeQueryTarget (today : Int) (query : String) : Option Int :=
  if yesterday_test query then some (today - 1)
  else if today_test query then some today
  else if (specific_date_capture query).isSome then
    match specific_date_capture query with
    | some cap => parse_date_string cap
    | none => none
  else
    match day_of_week_match query with
    | some (pfxCap, dayCap) =>
        let pfx := match pfxCap with
          | some p => jsTrim p
          | none => "last"
        some (get_date_for_day_of_week today dayCap pfx)
    | none => none

/-- `check_time_related_query` (src/main.ts:192): resolve the temporal
expression, then look the date up in the vault; the result list holds the
daily note when one is found. -/
def check_time_related_query (today : Int) (corpus : List Doc) (query : String) :
    List Doc :=
  match timeQueryTarget today query with
  | some t =>
      match find_daily_note t corpus with
      | some d => [d]
      | none => []
  | none => []

/-- Exact reference resolution of the `prepareMessage` loop
(src/main.ts:1353): first vault file whose lowercased basename equals the
lowercased token. -/
def findExactFile (corpus : List Doc) (fileName : String) : Option Doc :=
  corpus.find? (fun f => lowStr f.name = lowStr fileName)

/-- Fuzzy resolution (src/main.ts:1366): first vault file whose lowercased
basename contains the token or is contained in it. -/
def findFuzzyFile (corpus : List Doc) (fileName : String) : Option Doc :=
  corpus.find? (fun f =>
    containsSub (lowStr f.name).data (lowStr fileName).data ||
    containsSub (lowStr fileName).data (lowStr f.name).data)

/-- The explicit-reference resolution loop of `prepareMessage`
(src/main.ts:1351): exact match, else fuzzy match, else a non-fatal notice
and the token is skipped.  Reads are modelled as always succeeding. -/
def resolveExplicitFiles (corpus : List Doc) (refs : List String) : List Doc :=
  refs.foldl
    (fun acc fileName =>
      match findExactFile corpus fileName with
      | some f => acc ++ [f]
      | none =>
          match findFuzzyFile corpus fileName with
          | some f => acc ++ [f]
          | none => acc) []

/-- The full `includedFiles` list assembled by `prepareMessage`, in push
order: time-related files first (skipping those whose name equals an
extracted token, case-insensitively), then the resolved explicit
references, then the current file when the setting asks for it and its name
is no extracted token. -/
def includedFilesOf (today : Int) (corpus : List Doc) (includeCur : Bool)
    (cur : Option Doc) (userInput : String) : List Doc :=
  let fileReferences := extractFileReferences userInput
  let timeFiles := (check_time_related_query today corpus userInput).filter
    (fun f => ¬ fileReferences.any (fun ref => lowStr ref = lowStr f.name))
  let base := timeFiles ++ resolveExplicitFiles corpus fileReferences
  match includeCur, cur with
  | true, some f =>
      if fileReferences.any (fun ref => lowStr ref = lowStr f.name) then base
      else base ++ [f]
  | _, _ => base

/-- Unanchored test of `/\d{4}-\d{2}-\d{2}/`. -/
def hasDateShape (l : List Char) : Bool :=
  reSearch (seqL [.rep isDig 4 4, chrRE '-', .rep isDig 2 2, chrRE '-',
    .rep isDig 2 2]) l

/-- Does the list start with a weekday abbreviation `mon|tue|wed|thu|fri|sat|sun`? -/
def weekdayAbbrevAt (l : List Char) : Bool :=
  startsWithL l "mon".data || startsWithL l "tue".data || startsWithL l "wed".data ||
  startsWithL l "thu".data || startsWithL l "fri".data || startsWithL l "sat".data ||
  startsWithL l "sun".data

/-- Scan for `\b(mon|tue|...)` at a later position: the previous character
must not be a word character. -/
def wdAbbrevScan : List Char → Bool
  | [] => false
  | c :: l => ((¬ isWord c) ∧ weekdayAbbrevAt l) || wdAbbrevScan l

/-- Unanchored test of `/\b(mon|tue|wed|thu|fri|sat|sun)/` (applied to a
lowercased name by the source). -/
def hasWeekdayAbbrev (l : List Char) : Bool :=
  weekdayAbbrevAt l || wdAbbrevScan l

/-- The `is_daily_note` test of `prepareMessage` (src/main.ts:1401). -/
def isDailyNoteName (name : String) : Bool :=
  hasDateShape name.data ||
  containsSub (lowStr name).data "daily".data ||
  containsSub (lowStr name).data "journal".data ||
  hasWeekdayAbbrev (lowStr name).data

/-- Leftmost match of `/(\d{4})-(\d{2})-(\d{2})/` in a name, reassembled as
`YYYY-MM-DD` (exactly the matched substring). -/
def firstDateLike : List Char → Option String
  | [] => none
  | l@(_ :: rest) =>
      if isoShapeL (l.take 10) then some (String.mk (l.take 10))
      else firstDateLike rest

/-- The `date_str` of a daily-note block: the first embedded date when the
name has one, the full name otherwise. -/
def dailyNoteDateStr (name : String) : String :=
  match firstDateLike name.data with
  | some s => s
  | none => name

/-- A code fence. -/
def fenceStr : String := String.mk [btick, btick, btick]

/-- One block of `filesContent` (src/main.ts:1400). -/
def fileBlock (f : Doc) : String :=
  if isDailyNoteName f.name then
    "Your daily note for " ++ dailyNoteDateStr f.name ++
    ". This contains your activities and notes for this day:\n" ++ fenceStr ++ "\n" ++
    f.content ++ "\n" ++ fenceStr ++ "\n\n"
  else
    "File: " ++ f.name ++ "\n" ++ fenceStr ++ "\n" ++ f.content ++ "\n" ++
    fenceStr ++ "\n\n"

/-- The display payload of `prepareMessage`: a plain string when no file was
included, otherwise the stripped text plus the included file names. -/
inductive DisplayOut where
  | plain (text : String)
  | withFiles (text : String) (fileNames : List String)
deriving DecidableEq, Repr

/-- Result of `prepareMessage`. -/
structure Prepared where
  display : DisplayOut
  apiText : String
deriving DecidableEq, Repr

/-- `prepareMessage` (src/main.ts:1332) as a pure function of the current
date, the vault snapshot, the include-current-file setting, the current
file, whether the chat history is nonempty, and the raw input. -/
def prepareMessage (today : Int) (corpus : List Doc) (includeCur : Bool)
    (cur : Option Doc) (histNonempty : Bool) (userInput : String) : Prepared :=
  let includedFiles := includedFilesOf today corpus includeCur cur userInput
  let display :=
    if 0 < includedFiles.length then
      DisplayOut.withFiles (removeFileReferences userInput)
        (includedFiles.map (fun f => f.name))
    else DisplayOut.plain userInput
  let api1 :=
    if 0 < includedFiles.length then
      (includedFiles.map fileBlock).foldl (fun a b => a ++ b) "" ++
      "\n\nUser question:\n" ++ userInput ++
      "\n\nPlease answer based on the content of the provided files."
    else userInput
  let ctx := analyze_conversation_context userInput
  let api2 :=
    if ctx ≠ "" ∧ histNonempty then api1 ++ "\n\nConversation context: " ++ ctx
    else api1
  { display := display, apiText := api2 }

/-- A conversation turn. -/
structure ChatMsg where
  role : String
  content : String
deriving DecidableEq, Repr

/-- The plain record written by `save_chat_history` through
`plugin.saveData` (src/main.ts:1863). -/
structure PersistedData where
  chat_history : List ChatMsg
  conversation_id : String
  awaiting_user_response : Bool
deriving DecidableEq, Repr

/-- The mutable state touched by `sendToPerplexity`: the in-memory fields of
the view plus the persisted record behind `loadData`/`saveData`. -/
structure ChatState where
  apiKeySet : Bool
  conversation_id : Option String
  chatHistory : List ChatMsg
  awaiting_user_response : Bool
  currentModel : String
  persisted : PersistedData
deriving DecidableEq, Repr

/-- Outcome of the `fetch` call to the chat-completion endpoint. -/
inductive ApiOutcome where
  | ok (content : String) (citations : List String)
  | httpError (status : Nat)
deriving DecidableEq, Repr

/-- The record `sendToPerplexity` returns to its caller. -/
structure PerplexityResult where
  content : String
  reasoning : Option String
  citations : Option (List String)
deriving DecidableEq, Repr

/-- `\?\s*$` under the `m` flag: a question mark followed only by
whitespace up to a line end or the end of the string. -/
def qEnd : List Char → Bool
  | [] => true
  | c :: l => if c = '\n' then true else if isWs c then qEnd l else false

/-- Scan for a position matching `\?\s*$` (multiline). -/
def questionMarkEnd : List Char → Bool
  | [] => false
  | c :: l => (c = '?' ∧ qEnd l) || questionMarkEnd l

/-- The trailing `\b` after a word-character pattern: end of string or a
non-word character. -/
def wordEndBoundary : List Char → Bool
  | [] => true
  | c :: _ => ¬ isWord c

/-- Is there an occurrence of `w` here with a non-word character (or the
string end) directly after it? -/
def wordOccAt (w l : List Char) : Bool :=
  startsWithL l w && wordEndBoundary (l.drop w.length)

/-- Scan for `\bw` at a later position (previous character not a word
character), with the trailing boundary checked by `wordOccAt`. -/
def wordScan (w : List Char) : List Char → Bool
  | [] => false
  | c :: l => ((¬ isWord c) ∧ wordOccAt w l) || wordScan w l

/-- Case-insensitive whole-word (or whole-phrase) containment,
`\bw\b` with the `i` flag. -/
def containsWordCI (w content : String) : Bool :=
  let l := (lowStr content).data
  wordOccAt w.data l || wordScan w.data l

/-- `detect_question_in_response` (src/main.ts:676): any of the five
question heuristics. -/
def detect_question_in_response (content : String) : Bool :=
  questionMarkEnd content.data ||
  containsWordCI "what" content || containsWordCI "how" content ||
  containsWordCI "why" content || containsWordCI "when" content ||
  containsWordCI "where" content || containsWordCI "which" content ||
  containsWordCI "can you" content || containsWordCI "could you" content ||
  containsWordCI "would you" content ||
  containsSub (lowStr content).data "let me know".data ||
  containsWordCI "thoughts" content

/-- `String.prototype.split` on a substring separator (leftmost,
non-overlapping); the separator is passed as head and tail so it is
nonempty, every step consumes at least one character, and a fuel of the
input length plus one keeps the recursion structural. -/
def splitOnSubAux (s0 : Char) (sRest : List Char) : Nat → List Char → List (List Char)
  | 0, l => [l]
  | _, [] => [[]]
  | fuel + 1, c :: rest =>
      if c = s0 ∧ startsWithL rest sRest then
        [] :: splitOnSubAux s0 sRest fuel (rest.drop sRest.length)
      else
        match splitOnSubAux s0 sRest fuel rest with
        | [] => [[c]]
        | f :: fs => (c :: f) :: fs

/-- Split a string on a nonempty substring separator. -/
def splitOnSubStr (s0 : Char) (sRest : List Char) (s : String) : List String :=
  (splitOnSubAux s0 sRest (s.data.length + 1) s.data).map String.mk

/-- `String.prototype.replace` with a plain-string pattern: first
occurrence only. -/
def replaceFirstL (pat : List Char) : List Char → List Char
  | [] => []
  | l@(c :: rest) =>
      if pat ≠ [] ∧ startsWithL l pat then l.drop pat.length
      else c :: replaceFirstL pat rest

/-- The reasoning post-processing of `sendToPerplexity` (src/main.ts:646):
each nonempty trimmed line of the think block wrapped in asterisks. -/
def reasoningOf (thinkPart : String) : String :=
  String.intercalate "\n"
    (((splitOnChar '\n' thinkPart.data).map String.mk).map
      (fun line => if jsTrim line = "" then "" else "*" ++ jsTrim line ++ "*"))

/-- `save_chat_history` (src/main.ts:1857): merge the in-memory history,
conversation id and awaiting flag into the persisted record. -/
def save_chat_history (st : ChatState) : ChatState :=
  { st with persisted :=
      { chat_history := st.chatHistory,
        conversation_id := match st.conversation_id with | some i => i | none => "",
        awaiting_user_response := st.awaiting_user_response } }

/-- The content post-processing of `sendToPerplexity` (src/main.ts:642):
for a reasoning model whose reply contains a think block, the visible
content is the trimmed part between the first and second `</think>`
occurrence (the whole reply otherwise). -/
def processedContent (model content0 : String) : String :=
  if containsSub model.data "reasoning".data ∧ containsSub content0.data "<think>".data then
    match splitOnSubStr '<' "/think>".data content0 with
    | _ :: p1 :: _ => jsTrim p1
    | _ => content0
  else content0

/-- The reasoning text extracted by `sendToPerplexity` (src/main.ts:645):
the think block with the `<think>` opener removed, trimmed, each nonempty
line wrapped in asterisks. -/
def processedReasoning (model content0 : String) : String :=
  if containsSub model.data "reasoning".data ∧ containsSub content0.data "<think>".data then
    match splitOnSubStr '<' "/think>".data content0 with
    | p0 :: _ :: _ =>
        reasoningOf (jsTrim (String.mk (replaceFirstL "<think>".data p0.data)))
    | _ => ""
  else ""

/-- `sendToPerplexity` (src/main.ts:595) as a state transition, with the
network outcome passed in.  The user turn is pushed onto the in-memory
history before the call; any thrown error is caught, a notice is shown, and
the ordinary record with empty content is returned; `save_chat_history`
runs only on the success path, after the assistant turn is pushed. -/
def sendToPerplexity (st : ChatState) (newId : String) (message : String)
    (outcome : ApiOutcome) : ChatState × PerplexityResult :=
  if st.apiKeySet = false then (st, ⟨"", none, none⟩)
  else
    let st1 := match st.conversation_id with
      | none => { st with conversation_id := some newId }
      | some _ => st
    let st2 := { st1 with chatHistory := st1.chatHistory ++ [⟨"user", message⟩] }
    match outcome with
    | .httpError _ => (st2, ⟨"", none, none⟩)
    | .ok content0 citations =>
        let content := processedContent st2.currentModel content0
        let reasoning := processedReasoning st2.currentModel content0
        let st3 := { st2 with
          awaiting_user_response := detect_question_in_response content,
          chatHistory := st2.chatHistory ++ [⟨"assistant", content⟩] }
        let st4 := save_chat_history st3
        (st4, ⟨content, some reasoning, some citations⟩)

/-- The stripper as the amended C7 claim words it: the skip of the source is
expressed as a filter — bare removal runs only over tokens that do not also
occur backtick-wrapped in the original text. -/
def amendedRemoveFileReferences (text : String) : String :=
  let cleaned := rmBkStep .idle text.data
  let refs := (sortLenDesc (extractFileReferences text)).filter
    (fun ref => ¬ containsSub text.data ('@' :: btick :: ref.data ++ [btick]))
  let cleaned2 := refs.foldl (fun acc ref => rmBare ref.data acc) cleaned
  String.mk (jsTrimL (collapseWs2 false cleaned2))

/-- Two-digit decimal rendering (used to state the amended C4 claim). -/
def pad2Digits (n : Nat) : List Char := [digChar (n / 10), digChar n]

/-- Four-digit decimal rendering. -/
def pad4Digits (n : Nat) : List Char :=
  [digChar (n / 1000), digChar (n / 100), digChar (n / 10), digChar n]

/-- An explicit `YYYY-MM-DD` literal with the given components. -/
def isoRender (y m d : Nat) : String :=
  String.mk (pad4Digits y ++ '-' :: pad2Digits m ++ '-' :: pad2Digits d)

/-- An explicit `M sep D sep YY` literal: month and day unpadded (one or two
digits), two-digit year. -/
def mdyRender (sep : Char) (m d yy : Nat) : String :=
  String.mk (natDigits m ++ sep :: natDigits d ++ sep :: pad2Digits yy)

/-- An explicit `M sep D sep YYYY` literal: month and day unpadded (one or
two digits), four-digit year. -/
def mdy4Render (sep : Char) (m d y : Nat) : String :=
  String.mk (natDigits m ++ sep :: natDigits d ++ sep :: pad4Digits y)

/-- First-match lookup of a count in the association list (0 when absent),
used to state the amended C9 claim. -/
def countIn : List (String × Nat) → String → Nat
  | [], _ => 0
  | (k, v) :: rest, w => if k = w then v else countIn rest w

/-- The fully ranked entry list of `analyze_conversation_context` before the
`take 5`: frequency counts over the turn, `Object.entries` key ordering,
stable sort descending by count. -/
def rankedEntries (message : String) : List (String × Nat) :=
  sortCntDesc (jsEntries ((contextTokens message).foldl bumpCount []))

/-!  Helper lemmas shared by the claim theorems. -/

theorem mem_dedupAux (a : String) :
    ∀ (l seen : List String), a ∈ dedupAux seen l ↔ (a ∈ l ∧ ¬ a ∈ seen) := by
  intro l
  induction l with
  | nil => intro seen; simp [dedupAux]
  | cons x xs ih =>
      intro seen
      by_cases hx : x ∈ seen
      · simp only [dedupAux, if_pos hx, ih, List.mem_cons]
        constructor
        · rintro ⟨h1, h2⟩; exact ⟨Or.inr h1, h2⟩
        · rintro ⟨rfl | h1, h2⟩
          · exact absurd hx h2
          · exact ⟨h1, h2⟩
      · simp only [dedupAux, if_neg hx, List.mem_cons, ih]
        constructor
        · rintro (rfl | ⟨h1, h2⟩)
          · exact ⟨Or.inl rfl, hx⟩
          · exact ⟨Or.inr h1, fun hs => h2 (Or.inr hs)⟩
        · rintro ⟨rfl | h1, h2⟩
          · exact Or.inl rfl
          · by_cases hax : a = x
            · exact Or.inl hax
            · refine Or.inr ⟨h1, fun hs => ?_⟩
              rcases hs with h | h
              · exact hax h
              · exact h2 h

theorem dedupAux_congr :
    ∀ (l s1 s2 : List String), (∀ a, a ∈ s1 ↔ a ∈ s2) →
      dedupAux s1 l = dedupAux s2 l := by
  intro l
  induction l with
  | nil => intro s1 s2 _; rfl
  | cons x xs ih =>
      intro s1 s2 h
      by_cases hx : x ∈ s1
      · rw [dedupAux, if_pos hx, dedupAux, if_pos ((h x).mp hx)]
        exact ih s1 s2 h
      · rw [dedupAux, if_neg hx, dedupAux, if_neg (fun hc => hx ((h x).mpr hc))]
        rw [ih (x :: s1) (x :: s2) ?_]
        intro a
        simp only [List.mem_cons]
        exact or_congr Iff.rfl (h a)

theorem dedupAux_append :
    ∀ (l1 l2 seen : List String),
      dedupAux seen (l1 ++ l2) = dedupAux seen l1 ++ dedupAux (l1 ++ seen) l2 := by
  intro l1
  induction l1 with
  | nil => intro l2 seen; simp [dedupAux]
  | cons x xs ih =>
      intro l2 seen
      by_cases hx : x ∈ seen
      · have hcg : dedupAux (xs ++ seen) l2 = dedupAux ((x :: xs) ++ seen) l2 := by
          refine dedupAux_congr _ _ _ (fun a => ?_)
          simp only [List.cons_append, List.mem_cons, List.mem_append]
          constructor
          · rintro (h | h)
            · exact Or.inr (Or.inl h)
            · exact Or.inr (Or.inr h)
          · rintro (rfl | h | h)
            · exact Or.inr hx
            · exact Or.inl h
            · exact Or.inr h
        rw [List.cons_append, dedupAux, if_pos hx, dedupAux, if_pos hx, ih, hcg]
      · have hcg : dedupAux (xs ++ x :: seen) l2 = dedupAux ((x :: xs) ++ seen) l2 := by
          refine dedupAux_congr _ _ _ (fun a => ?_)
          simp only [List.cons_append, List.mem_cons, List.mem_append]
          tauto
        rw [List.cons_append, dedupAux, if_neg hx, dedupAux, if_neg hx, ih, hcg]
        rfl

theorem foldl_addToSet_eq :
    ∀ (l acc seen : List String), (∀ a, a ∈ acc ↔ a ∈ seen) →
      l.foldl addToSet acc = acc ++ dedupAux seen l := by
  intro l
  induction l with
  | nil => intro acc seen _; simp [dedupAux]
  | cons x xs ih =>
      intro acc seen h
      by_cases hx : x ∈ acc
      · rw [List.foldl_cons]
        rw [show addToSet acc x = acc from by rw [addToSet, if_pos hx]]
        rw [dedupAux, if_pos ((h x).mp hx)]
        exact ih acc seen h
      · rw [List.foldl_cons]
        rw [show addToSet acc x = acc ++ [x] from by rw [addToSet, if_neg hx]]
        rw [dedupAux, if_neg (fun hc => hx ((h x).mpr hc))]
        have hiff : ∀ a, a ∈ acc ++ [x] ↔ a ∈ x :: seen := by
          intro a
          have := h a
          simp only [List.mem_append, List.mem_cons, List.mem_singleton,
            List.not_mem_nil, or_false]
          tauto
        rw [ih (acc ++ [x]) (x :: seen) hiff, List.append_assoc]
        rfl

theorem dedupAux_nodup :
    ∀ (l seen : List String),
      (dedupAux seen l).Nodup ∧ ∀ a ∈ dedupAux seen l, ¬ a ∈ seen := by
  intro l
  induction l with
  | nil => intro seen; simp [dedupAux]
  | cons x xs ih =>
      intro seen
      by_cases hx : x ∈ seen
      · simpa only [dedupAux, if_pos hx] using ih seen
      · simp only [dedupAux, if_neg hx]
        obtain ⟨hn, hs⟩ := ih (x :: seen)
        refine ⟨List.nodup_cons.mpr ⟨fun hc => ?_, hn⟩, ?_⟩
        · exact hs x hc (List.mem_cons_self _ _)
        · intro a ha
          rcases List.mem_cons.mp ha with rfl | ha
          · exact hx
          · exact fun hc => hs a ha (List.mem_cons_of_mem _ hc)

theorem bk_fold_filter :
    ∀ (l : List (List Char)) (acc : List String),
      l.foldl
        (fun acc sp =>
          let filename := jsTrim (String.mk sp)
          if filename = "" then acc else addToSet acc filename) acc
      = (((l.map (fun sp => jsTrim (String.mk sp))).filter
          (fun s => s ≠ "")).foldl addToSet acc) := by
  intro l
  induction l with
  | nil => intro acc; rfl
  | cons x xs ih =>
      intro acc
      by_cases hx : jsTrim (String.mk x) = ""
      · simp only [List.foldl_cons, List.map_cons, List.filter_cons, hx]
        simpa [hx] using ih acc
      · simp only [List.foldl_cons, List.map_cons, List.filter_cons, hx]
        simpa [hx] using ih (addToSet acc (jsTrim (String.mk x)))

theorem foldl_skip_filter {α β : Type} (p : α → Bool) (g : α → β → β) :
    ∀ (l : List α) (init : β),
      l.foldl (fun acc x => if p x then acc else g x acc) init
      = (l.filter (fun x => ¬ p x)).foldl (fun acc x => g x acc) init := by
  intro l
  induction l with
  | nil => intro init; rfl
  | cons x xs ih =>
      intro init
      by_cases hx : p x
      · simp [List.filter_cons, hx, ih]
      · simp [List.filter_cons, hx, ih]

theorem bkStep_idle_no_at :
    ∀ (l : List Char), (∀ c ∈ l, ¬ c = '@') → bkStep .idle l = [] := by
  intro l
  induction l with
  | nil => intro _; rfl
  | cons c cs ih =>
      intro h
      have hc : ¬ c = '@' := h c (List.mem_cons_self _ _)
      simp only [bkStep, if_neg hc]
      exact ih (fun d hd => h d (List.mem_cons_of_mem _ hd))

theorem bareStep_idle_no_at :
    ∀ (l : List Char), (∀ c ∈ l, ¬ c = '@') → bareStep .idle l = [] := by
  intro l
  induction l with
  | nil => intro _; rfl
  | cons c cs ih =>
      intro h
      have hc : ¬ c = '@' := h c (List.mem_cons_self _ _)
      simp only [bareStep, if_neg hc]
      exact ih (fun d hd => h d (List.mem_cons_of_mem _ hd))

theorem foldl_addToSet_map :
    ∀ (l : List (List Char)) (acc : List String),
      l.foldl (fun acc x => addToSet acc (String.mk x)) acc
        = (l.map String.mk).foldl addToSet acc := by
  intro l
  induction l with
  | nil => intro acc; rfl
  | cons x xs ih => intro acc; simpa using ih (addToSet acc (String.mk x))

/-- C6 counterexample: the claim describes one left-to-right scan yielding
first-occurrence order, but the source collects all backtick-wrapped tokens
before any bare token, so on `"@a @(backtick)b(backtick)"` the code yields
`["b", "a"]` while the claimed first-occurrence order is `["a", "b"]`. -/
theorem extractFileReferences_order_counterexample :
    extractFileReferences "@a @`b`" = ["b", "a"] ∧
    specExtractFileReferences "@a @`b`" = ["a", "b"] ∧
    ¬ extractFileReferences "@a @`b`" = specExtractFileReferences "@a @`b`" :=
  ⟨by decide, by decide, by decide⟩

/-- C6 (amended): `extractFileReferences` returns a duplicate-free list:
the backtick-wrapped span contents (whitespace-trimmed, empty trims
dropped) in occurrence order first, then the bare tokens in occurrence
order, de-duplicated keeping first insertions; a bare token is a maximal
nonempty run after `@` excluding whitespace, `@`, backtick and the sentence
punctuation (punctuation is excluded everywhere in the run, not only
stripped from the end). -/
theorem extractFileReferences_amended :
    ∀ t : String,
      extractFileReferences t = dedupKeepFirst (mentionTokensInOrder t) ∧
      (extractFileReferences t).Nodup := by
  intro t
  have key : extractFileReferences t = dedupKeepFirst (mentionTokensInOrder t) := by
    show (bareStep .idle t.data).foldl (fun acc x => addToSet acc (String.mk x))
        ((bkStep .idle t.data).foldl
          (fun acc sp =>
            let filename := jsTrim (String.mk sp)
            if filename = "" then acc else addToSet acc filename) [])
      = dedupKeepFirst (mentionTokensInOrder t)
    rw [bk_fold_filter, foldl_addToSet_eq _ [] [] (fun a => Iff.rfl),
      List.nil_append, foldl_addToSet_map,
      foldl_addToSet_eq _ _ _ (fun a => Iff.rfl)]
    rw [dedupKeepFirst, mentionTokensInOrder, dedupAux_append]
    refine congrArg _ (dedupAux_congr _ _ _ (fun a => ?_))
    rw [mem_dedupAux, List.append_nil]
    simp
  exact ⟨key, by rw [key]; exact (dedupAux_nodup _ _).1⟩

/-- C7 counterexample: the claim says every remaining bare-token mention at
a token boundary is removed, but the source skips the bare-removal pass for
any token that also occurs backtick-wrapped, so stripping
`"@(backtick)a(backtick) @a x"` leaves `"@a x"` while the spec stripper
yields `"x"`. -/
theorem removeFileReferences_skip_counterexample :
    removeFileReferences "@`a` @a x" = "@a x" ∧
    specRemoveFileReferences "@`a` @a x" = "x" ∧
    ¬ removeFileReferences "@`a` @a x" = specRemoveFileReferences "@`a` @a x" :=
  ⟨by decide, by decide, by decide⟩

/-- C7 (amended): the stripper removes all backtick-wrapped mentions
verbatim and removes bare-token mentions longest-token-first at token
boundaries, except that a token which also occurs backtick-wrapped in the
original text is skipped in the bare-removal pass; whitespace is then
collapsed and the result trimmed.  In particular stripping `"@ab hello"`
(where token `a` would be a prefix of token `ab`) removes `ab` fully,
leaving `"hello"`. -/
theorem removeFileReferences_amended :
    (∀ t : String, removeFileReferences t = amendedRemoveFileReferences t) ∧
    removeFileReferences "@ab hello" = "hello" := by
  constructor
  · intro t
    show String.mk (jsTrimL (collapseWs2 false
        ((sortLenDesc (extractFileReferences t)).foldl
          (fun acc ref =>
            if containsSub t.data ('@' :: btick :: ref.data ++ [btick]) then acc
            else rmBare ref.data acc)
          (rmBkStep .idle t.data))))
      = amendedRemoveFileReferences t
    rw [foldl_skip_filter
      (fun (ref : String) => containsSub t.data ('@' :: btick :: ref.data ++ [btick]))
      (fun (ref : String) (acc : List Char) => rmBare ref.data acc)]
    rfl
  · decide

/-- C8 counterexample: extraction is not idempotent on stripped output — for
`"@(backtick)a(backtick) @a x"` the stripper leaves `"@a x"` (the token also
occurs backtick-wrapped, so its bare occurrence is skipped), and re-running
extraction yields `["a"]`, not the empty set. -/
theorem extract_idempotence_counterexample :
    extractFileReferences (removeFileReferences "@`a` @a x") = ["a"] ∧
    ¬ extractFileReferences (removeFileReferences "@`a` @a x") = [] :=
  ⟨by decide, by decide⟩

/-- C8 (amended): on any text containing no `@` character extraction
returns the empty set, and extraction applied to stripped output is empty
whenever that output contains no `@` character — but not in general, since
stripping can leave `@`-mentions behind. -/
theorem extract_no_tokens_amended :
    (∀ t : String, t.data.all (fun c => ¬ c = '@') → extractFileReferences t = []) ∧
    (∀ t : String, (removeFileReferences t).data.all (fun c => ¬ c = '@') →
      extractFileReferences (removeFileReferences t) = []) := by
  have base : ∀ t : String, t.data.all (fun c => ¬ c = '@') →
      extractFileReferences t = [] := by
    intro t h
    have h' : ∀ c ∈ t.data, ¬ c = '@' := by
      intro c hc
      simpa using List.all_eq_true.mp h c hc
    show (bareStep .idle t.data).foldl (fun acc x => addToSet acc (String.mk x))
        ((bkStep .idle t.data).foldl
          (fun acc sp =>
            let filename := jsTrim (String.mk sp)
            if filename = "" then acc else addToSet acc filename) []) = []
    rw [bkStep_idle_no_at t.data h', bareStep_idle_no_at t.data h']
    rfl
  exact ⟨base, fun t h => base (removeFileReferences t) h⟩

/-- C8 witness: both parts of the amended claim applied at concrete
inputs. -/
theorem extract_no_tokens_amended_witness :
    extractFileReferences "hello there" = [] ∧
    extractFileReferences (removeFileReferences "@x") = [] :=
  ⟨extract_no_tokens_amended.1 "hello there" (by decide),
   extract_no_tokens_amended.2 "@x" (by decide)⟩

theorem insCntDesc_perm (x : String × Nat) :
    ∀ l : List (String × Nat), List.Perm (insCntDesc x l) (x :: l) := by
  intro l
  induction l with
  | nil => exact List.Perm.refl _
  | cons y ys ih =>
      rw [insCntDesc]
      by_cases hc : x.2 ≤ y.2
      · rw [if_pos hc]
        exact (ih.cons y).trans (List.Perm.swap x y ys)
      · rw [if_neg hc]

theorem sortCntDesc_fold_perm :
    ∀ (l acc : List (String × Nat)),
      List.Perm (l.foldl (fun acc x => insCntDesc x acc) acc) (acc ++ l) := by
  intro l
  induction l with
  | nil => intro acc; simp
  | cons x xs ih =>
      intro acc
      rw [List.foldl_cons]
      refine (ih (insCntDesc x acc)).trans ?_
      refine (List.Perm.append_right xs (insCntDesc_perm x acc)).trans ?_
      exact List.perm_middle.symm

theorem sortCntDesc_perm (l : List (String × Nat)) :
    List.Perm (sortCntDesc l) l := by
  simpa using sortCntDesc_fold_perm l []

theorem insCntDesc_pairwise (x : String × Nat) :
    ∀ l : List (String × Nat),
      l.Pairwise (fun p q => q.2 ≤ p.2) →
      (insCntDesc x l).Pairwise (fun p q => q.2 ≤ p.2) := by
  intro l
  induction l with
  | nil => intro _; simp [insCntDesc]
  | cons y ys ih =>
      intro hp
      rw [List.pairwise_cons] at hp
      rw [insCntDesc]
      by_cases hc : x.2 ≤ y.2
      · rw [if_pos hc]
        rw [List.pairwise_cons]
        refine ⟨fun z hz => ?_, ih hp.2⟩
        rcases (insCntDesc_perm x ys).mem_iff.mp hz with hz2
        rcases List.mem_cons.mp hz2 with rfl | hz3
        · exact hc
        · exact hp.1 z hz3
      · rw [if_neg hc]
        rw [List.pairwise_cons]
        refine ⟨fun z hz => ?_, List.pairwise_cons.mpr hp⟩
        rcases List.mem_cons.mp hz with rfl | hz2
        · omega
        · have := hp.1 z hz2
          omega

theorem sortCntDesc_fold_pairwise :
    ∀ (l acc : List (String × Nat)),
      acc.Pairwise (fun p q => q.2 ≤ p.2) →
      (l.foldl (fun acc x => insCntDesc x acc) acc).Pairwise
        (fun p q => q.2 ≤ p.2) := by
  intro l
  induction l with
  | nil => intro acc h; exact h
  | cons x xs ih =>
      intro acc h
      rw [List.foldl_cons]
      exact ih (insCntDesc x acc) (insCntDesc_pairwise x acc h)

theorem sortCntDesc_pairwise (l : List (String × Nat)) :
    (sortCntDesc l).Pairwise (fun p q => q.2 ≤ p.2) :=
  sortCntDesc_fold_pairwise l [] (by simp)

theorem insCntDesc_filter (x : String × Nat) (c : Nat) :
    ∀ l : List (String × Nat),
      l.Pairwise (fun p q => q.2 ≤ p.2) →
      (insCntDesc x l).filter (fun p => p.2 = c)
        = if x.2 = c then l.filter (fun p => p.2 = c) ++ [x]
          else l.filter (fun p => p.2 = c) := by
  intro l
  induction l with
  | nil =>
      intro _
      by_cases hx : x.2 = c
      · rw [if_pos hx]
        simp [insCntDesc, List.filter, hx]
      · rw [if_neg hx]
        simp [insCntDesc, List.filter, hx]
  | cons y ys ih =>
      intro hp
      rw [List.pairwise_cons] at hp
      rw [insCntDesc]
      by_cases hc : x.2 ≤ y.2
      · rw [if_pos hc]
        rw [List.filter_cons, List.filter_cons]
        by_cases hy : y.2 = c
        · simp only [hy, decide_True, if_true]
          rw [ih hp.2]
          by_cases hx : x.2 = c
          · rw [if_pos hx, if_pos hx]
            simp
          · rw [if_neg hx, if_neg hx]
        · simp only [hy, decide_False, if_false]
          exact ih hp.2
      · rw [if_neg hc]
        by_cases hx : x.2 = c
        · rw [if_pos hx]
          have hys : ∀ z ∈ y :: ys, ¬ z.2 = c := by
            intro z hz
            rcases List.mem_cons.mp hz with rfl | hz2
            · omega
            · have := hp.1 z hz2
              omega
          have hemp : (y :: ys).filter (fun p => p.2 = c) = [] := by
            refine List.filter_eq_nil_iff.mpr (fun z hz => ?_)
            simp only [decide_eq_true_eq]
            exact hys z hz
          rw [List.filter_cons, hemp]
          simp [hx]
        · rw [if_neg hx]
          rw [List.filter_cons]
          simp [hx]

theorem sortCntDesc_fold_filter (c : Nat) :
    ∀ (l acc : List (String × Nat)),
      acc.Pairwise (fun p q => q.2 ≤ p.2) →
      (l.foldl (fun acc x => insCntDesc x acc) acc).filter (fun p => p.2 = c)
        = acc.filter (fun p => p.2 = c) ++ l.filter (fun p => p.2 = c) := by
  intro l
  induction l with
  | nil => intro acc _; simp
  | cons x xs ih =>
      intro acc h
      rw [List.foldl_cons, ih (insCntDesc x acc) (insCntDesc_pairwise x acc h),
        insCntDesc_filter x c acc h, List.filter_cons]
      by_cases hx : x.2 = c
      · rw [if_pos hx]
        simp [hx]
      · rw [if_neg hx]
        simp [hx]

theorem sortCntDesc_filter (l : List (String × Nat)) (c : Nat) :
    (sortCntDesc l).filter (fun p => p.2 = c) = l.filter (fun p => p.2 = c) := by
  simpa using sortCntDesc_fold_filter c l [] (by simp)

theorem insNumAsc_perm (x : String × Nat) :
    ∀ l : List (String × Nat), List.Perm (insNumAsc x l) (x :: l) := by
  intro l
  induction l with
  | nil => exact List.Perm.refl _
  | cons y ys ih =>
      rw [insNumAsc]
      by_cases hc : digitsVal y.1.data ≤ digitsVal x.1.data
      · rw [if_pos hc]
        exact (ih.cons y).trans (List.Perm.swap x y ys)
      · rw [if_neg hc]

theorem numSort_fold_perm :
    ∀ (l acc : List (String × Nat)),
      List.Perm (l.foldl (fun acc x => insNumAsc x acc) acc) (acc ++ l) := by
  intro l
  induction l with
  | nil => intro acc; simp
  | cons x xs ih =>
      intro acc
      rw [List.foldl_cons]
      refine (ih (insNumAsc x acc)).trans ?_
      refine (List.Perm.append_right xs (insNumAsc_perm x acc)).trans ?_
      exact List.perm_middle.symm

theorem insNumAsc_pairwise (x : String × Nat) :
    ∀ l : List (String × Nat),
      l.Pairwise (fun p q => digitsVal p.1.data ≤ digitsVal q.1.data) →
      (insNumAsc x l).Pairwise
        (fun p q => digitsVal p.1.data ≤ digitsVal q.1.data) := by
  intro l
  induction l with
  | nil => intro _; simp [insNumAsc]
  | cons y ys ih =>
      intro hp
      rw [List.pairwise_cons] at hp
      rw [insNumAsc]
      by_cases hc : digitsVal y.1.data ≤ digitsVal x.1.data
      · rw [if_pos hc]
        rw [List.pairwise_cons]
        refine ⟨fun z hz => ?_, ih hp.2⟩
        rcases (insNumAsc_perm x ys).mem_iff.mp hz with hz2
        rcases List.mem_cons.mp hz2 with rfl | hz3
        · exact hc
        · exact hp.1 z hz3
      · rw [if_neg hc]
        rw [List.pairwise_cons]
        refine ⟨fun z hz => ?_, List.pairwise_cons.mpr hp⟩
        rcases List.mem_cons.mp hz with rfl | hz2
        · omega
        · have := hp.1 z hz2
          omega

theorem numSort_fold_pairwise :
    ∀ (l acc : List (String × Nat)),
      acc.Pairwise (fun p q => digitsVal p.1.data ≤ digitsVal q.1.data) →
      (l.foldl (fun acc x => insNumAsc x acc) acc).Pairwise
        (fun p q => digitsVal p.1.data ≤ digitsVal q.1.data) := by
  intro l
  induction l with
  | nil => intro acc h; exact h
  | cons x xs ih =>
      intro acc h
      rw [List.foldl_cons]
      exact ih (insNumAsc x acc) (insNumAsc_pairwise x acc h)

theorem filter_partition_perm {α : Type} (q : α → Bool) :
    ∀ l : List α, List.Perm (l.filter q ++ l.filter (fun a => ¬ q a)) l := by
  intro l
  induction l with
  | nil => simp
  | cons x xs ih =>
      by_cases hx : q x = true
      · have c2 : ¬ (((¬ q x : Bool)) = true) := by simp [hx]
        rw [List.filter_cons, List.filter_cons, if_pos hx, if_neg c2,
          List.cons_append]
        exact ih.cons x
      · have c2 : ((¬ q x : Bool)) = true := by simp [hx]
        rw [List.filter_cons, List.filter_cons, if_neg hx, if_pos c2]
        exact List.perm_middle.trans (ih.cons x)

theorem mem_numSort_idx (m : List (String × Nat)) :
    ∀ p ∈ (m.filter (fun p => isArrayIdxKey p.1)).foldl
        (fun acc x => insNumAsc x acc) [],
      isArrayIdxKey p.1 = true := by
  intro p hp
  have hp2 := (numSort_fold_perm (m.filter (fun p => isArrayIdxKey p.1)) []).mem_iff.mp hp
  rw [List.nil_append] at hp2
  exact (List.mem_filter.mp hp2).2

theorem jsEntries_perm (m : List (String × Nat)) :
    List.Perm (jsEntries m) m := by
  have hnum := numSort_fold_perm (m.filter (fun p => isArrayIdxKey p.1)) []
  rw [List.nil_append] at hnum
  rw [jsEntries]
  exact (List.Perm.append_right _ hnum).trans
    (filter_partition_perm (fun p => isArrayIdxKey p.1) m)

theorem jsEntries_num_block_first (m : List (String × Nat)) :
    (jsEntries m).Pairwise
      (fun p q => isArrayIdxKey q.1 = true → isArrayIdxKey p.1 = true) := by
  rw [jsEntries, List.pairwise_append]
  refine ⟨?_, ?_, ?_⟩
  · exact List.pairwise_of_forall_mem_list
      (fun a ha b hb _ => mem_numSort_idx m a ha)
  · refine List.pairwise_of_forall_mem_list (fun a ha b hb hq => ?_)
    have hb2 : ¬ isArrayIdxKey b.1 = true := by
      simpa using (List.mem_filter.mp hb).2
    exact absurd hq hb2
  · exact fun a ha b hb _ => mem_numSort_idx m a ha

theorem jsEntries_num_ascending (m : List (String × Nat)) :
    (jsEntries m).Pairwise
      (fun p q => isArrayIdxKey p.1 = true → isArrayIdxKey q.1 = true →
        digitsVal p.1.data ≤ digitsVal q.1.data) := by
  rw [jsEntries, List.pairwise_append]
  refine ⟨?_, ?_, ?_⟩
  · exact (numSort_fold_pairwise _ [] (by simp)).imp (fun h _ _ => h)
  · refine List.pairwise_of_forall_mem_list (fun a ha b hb ha2 => ?_)
    have ha3 : ¬ isArrayIdxKey a.1 = true := by
      simpa using (List.mem_filter.mp ha).2
    exact absurd ha2 ha3
  · intro a ha b hb _ hb2
    have hb3 : ¬ isArrayIdxKey b.1 = true := by
      simpa using (List.mem_filter.mp hb).2
    exact absurd hb2 hb3

theorem jsEntries_nonnum_order (m : List (String × Nat)) :
    (jsEntries m).filter (fun p => ¬ isArrayIdxKey p.1)
      = m.filter (fun p => ¬ isArrayIdxKey p.1) := by
  rw [jsEntries, List.filter_append]
  have h1 : ((m.filter (fun p => isArrayIdxKey p.1)).foldl
      (fun acc x => insNumAsc x acc) []).filter (fun p => ¬ isArrayIdxKey p.1)
      = [] := by
    refine List.filter_eq_nil_iff.mpr (fun p hp => ?_)
    simp [mem_numSort_idx m p hp]
  have h2 : (m.filter (fun p => ¬ isArrayIdxKey p.1)).filter
      (fun p => ¬ isArrayIdxKey p.1) = m.filter (fun p => ¬ isArrayIdxKey p.1) := by
    refine List.filter_eq_self.mpr (fun p hp => ?_)
    exact (List.mem_filter.mp hp).2
  rw [h1, h2, List.nil_append]

theorem bumpCount_keys (w : String) :
    ∀ m : List (String × Nat),
      (bumpCount m w).map Prod.fst = addToSet (m.map Prod.fst) w := by
  intro m
  induction m with
  | nil => rfl
  | cons e rest ih =>
      obtain ⟨k, v⟩ := e
      by_cases hk : k = w
      · rw [bumpCount, if_pos hk, addToSet,
          if_pos (show w ∈ ((k, v) :: rest).map Prod.fst from by
            rw [List.map_cons]
            exact List.mem_cons.mpr (Or.inl hk.symm))]
        rfl
      · rw [bumpCount, if_neg hk]
        show (k, v).1 :: (bumpCount rest w).map Prod.fst
          = addToSet (((k, v) :: rest).map Prod.fst) w
        rw [ih]
        by_cases hw : w ∈ rest.map Prod.fst
        · rw [show addToSet (rest.map Prod.fst) w = rest.map Prod.fst from by
            rw [addToSet, if_pos hw]]
          rw [show addToSet (((k, v) :: rest).map Prod.fst) w
              = ((k, v) :: rest).map Prod.fst from by
            rw [addToSet, if_pos (show w ∈ ((k, v) :: rest).map Prod.fst from by
              rw [List.map_cons]
              exact List.mem_cons_of_mem _ hw)]]
          rfl
        · have hnotin : ¬ w ∈ ((k, v) :: rest).map Prod.fst := by
            rw [List.map_cons]
            intro h
            rcases List.mem_cons.mp h with h | h
            · exact hk h.symm
            · exact hw h
          rw [show addToSet (rest.map Prod.fst) w = rest.map Prod.fst ++ [w] from by
            rw [addToSet, if_neg hw]]
          rw [show addToSet (((k, v) :: rest).map Prod.fst) w
              = ((k, v) :: rest).map Prod.fst ++ [w] from by
            rw [addToSet, if_neg hnotin]]
          rw [List.map_cons]
          rfl

theorem bumpCount_fold_keys :
    ∀ (toks : List String) (m : List (String × Nat)),
      ((toks.foldl bumpCount m).map Prod.fst)
        = toks.foldl addToSet (m.map Prod.fst) := by
  intro toks
  induction toks with
  | nil => intro m; rfl
  | cons t ts ih =>
      intro m
      rw [List.foldl_cons, List.foldl_cons, ih, bumpCount_keys]

theorem bumpCount_fold_keys_dedup (toks : List String) :
    ((toks.foldl bumpCount []).map Prod.fst) = dedupKeepFirst toks := by
  rw [bumpCount_fold_keys]
  rw [show (([] : List (String × Nat)).map Prod.fst) = ([] : List String) from rfl]
  rw [foldl_addToSet_eq toks [] [] (fun a => Iff.rfl), List.nil_append]
  rfl

theorem countIn_bump_self (w : String) :
    ∀ m : List (String × Nat), countIn (bumpCount m w) w = countIn m w + 1 := by
  intro m
  induction m with
  | nil => simp [bumpCount, countIn]
  | cons e rest ih =>
      obtain ⟨k, v⟩ := e
      by_cases hk : k = w
      · rw [bumpCount, if_pos hk, countIn, if_pos hk, countIn, if_pos hk]
      · rw [bumpCount, if_neg hk, countIn, if_neg hk, countIn, if_neg hk]
        exact ih

theorem countIn_bump_other {w v : String} (hvw : ¬ v = w) :
    ∀ m : List (String × Nat), countIn (bumpCount m w) v = countIn m v := by
  intro m
  induction m with
  | nil =>
      show (if w = v then 1 else countIn [] v) = countIn [] v
      rw [if_neg (fun h => hvw h.symm)]
  | cons e rest ih =>
      obtain ⟨k, u⟩ := e
      by_cases hk : k = w
      · have hkv : ¬ k = v := fun h => hvw (h.symm.trans hk)
        rw [bumpCount, if_pos hk, countIn, if_neg hkv, countIn, if_neg hkv]
      · by_cases hkv : k = v
        · rw [bumpCount, if_neg hk, countIn, if_pos hkv, countIn, if_pos hkv]
        · rw [bumpCount, if_neg hk, countIn, if_neg hkv, countIn, if_neg hkv]
          exact ih

theorem countIn_fold (w : String) :
    ∀ (toks : List String) (m : List (String × Nat)),
      countIn (toks.foldl bumpCount m) w = countIn m w + toks.count w := by
  intro toks
  induction toks with
  | nil => intro m; simp
  | cons t ts ih =>
      intro m
      rw [List.foldl_cons, ih]
      by_cases ht : t = w
      · subst ht
        rw [countIn_bump_self]
        simp [List.count_cons]
        omega
      · rw [countIn_bump_other (fun h => ht h.symm), List.count_cons]
        have hbe : (t == w) = false := by
          simp only [beq_eq_false_iff_ne, ne_eq]
          exact ht
        rw [hbe]
        simp

theorem countIn_of_mem :
    ∀ (m : List (String × Nat)) (w : String) (c : Nat),
      (m.map Prod.fst).Nodup → (w, c) ∈ m → countIn m w = c := by
  intro m
  induction m with
  | nil => intro w c _ h; simp at h
  | cons e rest ih =>
      intro w c hnd h
      obtain ⟨k, v⟩ := e
      rw [List.map_cons, List.nodup_cons] at hnd
      rcases List.mem_cons.mp h with heq | hmem
      · injection heq with h1 h2
        subst h1
        subst h2
        rw [countIn, if_pos rfl]
      · by_cases hk : k = w
        · exact absurd (hk ▸ (List.mem_map.mpr ⟨(w, c), hmem, rfl⟩)) hnd.1
        · rw [countIn, if_neg hk]
          exact ih w c hnd.2 hmem

/-- C9 counterexample: the claim says ties are broken by first-occurrence
order, but keys shaped like canonical array indices are enumerated first by
`Object.entries` in ascending numeric order; on `"9999 1111 9999 1111"`
(both tokens tied at two occurrences) the code ranks `1111` before `9999`
while the first-occurrence tie-break would rank `9999` first. -/
theorem keywords_tiebreak_counterexample :
    topKeywords "9999 1111 9999 1111" = ["1111", "9999"] ∧
    specTopKeywords "9999 1111 9999 1111" = ["9999", "1111"] ∧
    ¬ topKeywords "9999 1111 9999 1111"
        = specTopKeywords "9999 1111 9999 1111" :=
  ⟨by decide, by decide, by decide⟩

/-- C9 (amended): for every message the keyword summary is the first five
keys of the fully ranked entry list `rankedEntries`, and that list obeys
the claimed ranking discipline universally: the count table keys are the
filtered tokens de-duplicated in first-occurrence order; the ranked keys
are exactly those distinct tokens; every ranked entry carries its exact
within-turn frequency; the ranking is descending by count; entries of
equal count keep the `Object.entries` order of the count table — in which
canonical decimal numerals come first, ascending numerically, and all
other keys follow in first-occurrence insertion order — and at most five
keywords are kept.  The spec example and the numeric-token exception
evaluate as stated. -/
theorem keywords_amended :
    (∀ message : String,
      topKeywords message = ((rankedEntries message).take 5).map Prod.fst ∧
      (topKeywords message).length ≤ 5 ∧
      ((contextTokens message).foldl bumpCount []).map Prod.fst
        = dedupKeepFirst (contextTokens message) ∧
      List.Perm ((rankedEntries message).map Prod.fst)
        (dedupKeepFirst (contextTokens message)) ∧
      (∀ p ∈ rankedEntries message,
        p.2 = (contextTokens message).count p.1) ∧
      (rankedEntries message).Pairwise (fun p q => q.2 ≤ p.2) ∧
      (∀ c : Nat, (rankedEntries message).filter (fun p => p.2 = c)
        = (jsEntries ((contextTokens message).foldl bumpCount [])).filter
            (fun p => p.2 = c)) ∧
      (jsEntries ((contextTokens message).foldl bumpCount [])).Pairwise
        (fun p q => isArrayIdxKey q.1 = true → isArrayIdxKey p.1 = true) ∧
      (jsEntries ((contextTokens message).foldl bumpCount [])).Pairwise
        (fun p q => isArrayIdxKey p.1 = true → isArrayIdxKey q.1 = true →
          digitsVal p.1.data ≤ digitsVal q.1.data) ∧
      (jsEntries ((contextTokens message).foldl bumpCount [])).filter
          (fun p => ¬ isArrayIdxKey p.1)
        = ((contextTokens message).foldl bumpCount []).filter
            (fun p => ¬ isArrayIdxKey p.1)) ∧
    topKeywords "machine learning helps machine learning projects"
      = ["machine", "learning", "helps", "projects"] ∧
    topKeywords "9999 1111 9999 1111" = ["1111", "9999"] := by
  refine ⟨fun message => ?_, by decide, by decide⟩
  refine ⟨rfl, ?_, bumpCount_fold_keys_dedup _, ?_, ?_, ?_, ?_, ?_, ?_, ?_⟩
  · simp only [topKeywords, List.length_map, List.length_take]
    exact Nat.min_le_left _ _
  · refine ((sortCntDesc_perm _).map Prod.fst).trans ?_
    rw [← bumpCount_fold_keys_dedup (contextTokens message)]
    exact (jsEntries_perm _).map Prod.fst
  · intro p hp
    have hp2 : p ∈ jsEntries ((contextTokens message).foldl bumpCount []) :=
      (sortCntDesc_perm _).mem_iff.mp hp
    have hp3 : p ∈ (contextTokens message).foldl bumpCount [] :=
      (jsEntries_perm _).mem_iff.mp hp2
    have hnd : (((contextTokens message).foldl bumpCount []).map Prod.fst).Nodup := by
      rw [bumpCount_fold_keys_dedup]
      exact (dedupAux_nodup (contextTokens message) []).1
    obtain ⟨w, c⟩ := p
    have h1 : countIn ((contextTokens message).foldl bumpCount []) w = c :=
      countIn_of_mem _ w c hnd hp3
    have h2 : countIn ((contextTokens message).foldl bumpCount []) w
        = (contextTokens message).count w := by
      rw [countIn_fold w (contextTokens message) []]
      simp [countIn]
    show c = (contextTokens message).count w
    rw [← h1]
    exact h2
  · exact sortCntDesc_pairwise _
  · exact fun c => sortCntDesc_filter _ c
  · exact jsEntries_num_block_first _
  · exact jsEntries_num_ascending _
  · exact jsEntries_nonnum_order _

/-- Witness for the amended C9 claim: at the spec example the ranked entry
list contains the pair (machine, 2), and the frequency conjunct of the
theorem applied there gives that 2 is the within-turn count of machine. -/
theorem keywords_amended_witness :
    ("machine", 2) ∈ rankedEntries "machine learning helps machine learning projects" ∧
    (("machine", 2) : String × Nat).2
      = (contextTokens "machine learning helps machine learning projects").count
          (("machine", 2) : String × Nat).1 :=
  ⟨by decide,
    (keywords_amended.1 "machine learning helps machine learning projects").2.2.2.2.1
      ("machine", 2) (by decide)⟩

/-- C1 counterexample: on the spec's own end-to-end example the resolved
list is `[<yesterday's note>, Daily Log]` — the temporal document is pushed
before the explicit-reference loop runs, so the order is
temporal-before-explicit, not explicit-before-temporal. -/
theorem prepareMessage_order_counterexample :
    (prepareMessage 19727
        [Doc.mk "Daily Log" "log content", Doc.mk "2024-01-04" "yesterday content"]
        false none false "@`Daily Log` what happened yesterday").display
      = DisplayOut.withFiles "what happened yesterday" ["2024-01-04", "Daily Log"] ∧
    ¬ (["2024-01-04", "Daily Log"] = ["Daily Log", "2024-01-04"]) :=
  ⟨by decide, by decide⟩

/-- C1 (amended): whenever the temporal lookup yields a document whose name
is not among the extracted mention tokens, the resolved list is that
temporal document first, followed by the resolved explicit documents in
mention order (temporal-before-explicit); in particular, for input
`"@(backtick)Daily Log(backtick) what happened yesterday"` on 2024-01-05
with a corpus holding `Daily Log` and `2024-01-04`, the resolved list is
`[2024-01-04, Daily Log]` and the display text is
`"what happened yesterday"` with those two referenced names. -/
theorem prepareMessage_order_amended :
    (∀ (today : Int) (corpus : List Doc) (input : String) (tdoc : Doc),
      (check_time_related_query today corpus input).filter
        (fun f => ¬ (extractFileReferences input).any
          (fun ref => lowStr ref = lowStr f.name)) = [tdoc] →
      includedFilesOf today corpus false none input
        = tdoc :: resolveExplicitFiles corpus (extractFileReferences input)) ∧
    (prepareMessage 19727
        [Doc.mk "Daily Log" "log content", Doc.mk "2024-01-04" "yesterday content"]
        false none false "@`Daily Log` what happened yesterday").display
      = DisplayOut.withFiles "what happened yesterday" ["2024-01-04", "Daily Log"] := by
  constructor
  · intro today corpus input tdoc h
    simp only [includedFilesOf]
    rw [h]
    rfl
  · decide

/-- C1 witness: the general temporal-before-explicit conjunct applied at the
end-to-end example. -/
theorem prepareMessage_order_amended_witness :
    includedFilesOf 19727
        [Doc.mk "Daily Log" "log content", Doc.mk "2024-01-04" "yesterday content"]
        false none "@`Daily Log` what happened yesterday"
      = Doc.mk "2024-01-04" "yesterday content" ::
        resolveExplicitFiles
          [Doc.mk "Daily Log" "log content", Doc.mk "2024-01-04" "yesterday content"]
          (extractFileReferences "@`Daily Log` what happened yesterday") :=
  prepareMessage_order_amended.1 19727
    [Doc.mk "Daily Log" "log content", Doc.mk "2024-01-04" "yesterday content"]
    "@`Daily Log` what happened yesterday"
    (Doc.mk "2024-01-04" "yesterday content") (by decide)

/-- C4 counterexample: the claim says a literal that does not denote a valid
calendar date (such as month 13) parses to no date at all, but the slash and
dash forms go through `new Date(year, m-1, d)`, which rolls the month over:
`"13/5/24"` parses to 2025-01-05 rather than to nothing. -/
theorem parse_date_rollover_counterexample :
    parse_date_string "13/5/24" = some (daysFromCivil 2025 1 5) ∧
    ¬ parse_date_string "13/5/24" = none :=
  ⟨by decide, by decide⟩

/-- C10 counterexample: the claim says an `ApiError` is surfaced to the
caller, but the source catches the thrown error, shows a notice and returns
the ordinary record with empty content — a value identical to the one the
missing-API-key early return produces, so the caller receives no error
indication at all. -/
theorem sendToPerplexity_error_swallowed_counterexample :
    (sendToPerplexity
        (ChatState.mk true (some "c1") [] false "sonar" (PersistedData.mk [] "c1" false))
        "n" "hi" (ApiOutcome.httpError 500)).2
      = PerplexityResult.mk "" none none ∧
    (sendToPerplexity
        (ChatState.mk false (some "c1") [] false "sonar" (PersistedData.mk [] "c1" false))
        "n" "hi" (ApiOutcome.ok "all good" [])).2
      = PerplexityResult.mk "" none none :=
  ⟨by decide, by decide⟩

/-- C10 (amended): on `ApiError` the error is not propagated — the call
returns the ordinary empty-content record — and the persisted conversation
state is unchanged by the failing call, while the appended user turn stays
only in the in-memory history; on a successful call the persisted history
gains exactly the user turn and the assistant turn. -/
theorem sendToPerplexity_failure_amended :
    ∀ (st : ChatState) (newId msg : String) (status : Nat),
      st.apiKeySet = true →
      ((sendToPerplexity st newId msg (ApiOutcome.httpError status)).1.persisted
          = st.persisted ∧
       (sendToPerplexity st newId msg (ApiOutcome.httpError status)).2
          = PerplexityResult.mk "" none none ∧
       (sendToPerplexity st newId msg (ApiOutcome.httpError status)).1.chatHistory
          = st.chatHistory ++ [ChatMsg.mk "user" msg]) ∧
      (∀ (content : String) (cits : List String), ∃ reply : String,
        (sendToPerplexity st newId msg (ApiOutcome.ok content cits)).1.persisted.chat_history
          = st.chatHistory ++ [ChatMsg.mk "user" msg, ChatMsg.mk "assistant" reply]) := by
  intro st newId msg status hkey
  constructor
  · cases hcid : st.conversation_id with
    | none => simp [sendToPerplexity, hkey, hcid]
    | some i => simp [sendToPerplexity, hkey, hcid]
  · intro content cits
    refine ⟨processedContent st.currentModel content, ?_⟩
    cases hcid : st.conversation_id with
    | none => simp [sendToPerplexity, hkey, hcid, save_chat_history, List.append_assoc]
    | some i => simp [sendToPerplexity, hkey, hcid, save_chat_history, List.append_assoc]

/-- C10 witness: the amended theorem applied at a concrete state, failing
call and successful call. -/
theorem sendToPerplexity_failure_amended_witness :
    (sendToPerplexity
        (ChatState.mk true (some "c1") [ChatMsg.mk "user" "earlier"] false "sonar"
          (PersistedData.mk [ChatMsg.mk "user" "earlier"] "c1" false))
        "n" "hi" (ApiOutcome.httpError 500)).1.persisted
      = PersistedData.mk [ChatMsg.mk "user" "earlier"] "c1" false ∧
    (∃ reply : String,
      (sendToPerplexity
          (ChatState.mk true (some "c1") [ChatMsg.mk "user" "earlier"] false "sonar"
            (PersistedData.mk [ChatMsg.mk "user" "earlier"] "c1" false))
          "n" "hi" (ApiOutcome.ok "fine" [])).1.persisted.chat_history
        = [ChatMsg.mk "user" "earlier"] ++
            [ChatMsg.mk "user" "hi", ChatMsg.mk "assistant" reply]) :=
  ⟨(sendToPerplexity_failure_amended
      (ChatState.mk true (some "c1") [ChatMsg.mk "user" "earlier"] false "sonar"
        (PersistedData.mk [ChatMsg.mk "user" "earlier"] "c1" false))
      "n" "hi" 500 (by decide)).1.1,
   (sendToPerplexity_failure_amended
      (ChatState.mk true (some "c1") [ChatMsg.mk "user" "earlier"] false "sonar"
        (PersistedData.mk [ChatMsg.mk "user" "earlier"] "c1" false))
      "n" "hi" 500 (by decide)).2 "fine" []⟩

theorem idxAux_lt :
    ∀ (l : List String) (i : Nat) (s : String) (k : Nat),
      idxAux l i s = some k → k < i + l.length := by
  intro l
  induction l with
  | nil => intro i s k h; simp [idxAux] at h
  | cons x xs ih =>
      intro i s k h
      rw [idxAux] at h
      by_cases hx : x = s
      · rw [if_pos hx] at h
        cases h
        simp
      · rw [if_neg hx] at h
        have := ih (i + 1) s k h
        simp only [List.length_cons]
        omega

theorem dayIndex_lt {s : String} {k : Nat} (h : dayIndex s = some k) : k < 7 := by
  have := idxAux_lt daysList 0 s k h
  simpa [daysList] using this

/-- C5: for every recognised weekday name, `get_date_for_day_of_week`
computes `diff` as the target weekday index minus today's weekday index
(Sunday = 0); with prefix `"this"` it adds 7 when the difference is
negative, so the result is never before today (and lands on the target
weekday within the next six days); with any other prefix (`"last"`, `"on"`,
or the `"last"` default) it subtracts 7 when the difference is nonnegative,
so the result is always within the previous seven days and never today or
later; on a Wednesday, `"this monday"` resolves five days ahead and
`"last monday"` two days prior. -/
theorem get_date_for_day_of_week_spec :
    ∀ (today : Int) (day pfx : String) (k : Nat),
      dayIndex (lowStr day) = some k →
      (today ≤ get_date_for_day_of_week today day "this" ∧
       get_date_for_day_of_week today day "this" ≤ today + 6 ∧
       getDay (get_date_for_day_of_week today day "this") = (k : Int)) ∧
      (¬ pfx = "this" →
        (today - 7 ≤ get_date_for_day_of_week today day pfx ∧
         get_date_for_day_of_week today day pfx < today ∧
         getDay (get_date_for_day_of_week today day pfx) = (k : Int))) ∧
      (getDay today = 3 → lowStr day = "monday" →
        get_date_for_day_of_week today day "this" = today + 5 ∧
        get_date_for_day_of_week today day "last" = today - 2) := by
  intro today day pfx k hk
  have hk7 : k < 7 := dayIndex_lt hk
  have he0 : 0 ≤ (today + 4) % 7 := Int.emod_nonneg _ (by norm_num)
  have he7 : (today + 4) % 7 < 7 := Int.emod_lt_of_pos _ (by norm_num)
  refine ⟨?_, ?_, ?_⟩
  · simp only [get_date_for_day_of_week, hk, getDay, if_true]
    by_cases hc : (k : Int) - (today + 4) % 7 < 0
    · rw [if_pos hc]; exact ⟨by omega, by omega, by omega⟩
    · rw [if_neg hc]; exact ⟨by omega, by omega, by omega⟩
  · intro hp
    have hother : ∀ A B : Int, (if pfx = "this" then A else B) = B :=
      fun A B => if_neg hp
    simp only [get_date_for_day_of_week, hk, getDay]
    rw [hother]
    by_cases hc : 0 ≤ (k : Int) - (today + 4) % 7
    · rw [if_pos hc]; exact ⟨by omega, by omega, by omega⟩
    · rw [if_neg hc]; exact ⟨by omega, by omega, by omega⟩
  · intro hg hmon
    have hidx : dayIndex (lowStr day) = some 1 := by rw [hmon]; decide
    rw [hidx] at hk
    cases hk
    simp only [getDay] at hg
    constructor
    · simp only [get_date_for_day_of_week, hidx, getDay, if_true]
      rw [if_pos (show ((1 : Nat) : Int) - (today + 4) % 7 < 0 from by omega)]
      omega
    · simp only [get_date_for_day_of_week, hidx, getDay]
      rw [if_neg (show ¬ ("last" : String) = "this" from by decide)]
      rw [if_neg (show ¬ 0 ≤ ((1 : Nat) : Int) - (today + 4) % 7 from by omega)]
      omega

/-- C5 witness: the theorem applied on 1970-01-07 (day 6, a Wednesday) for
`monday` with the `"on"` prefix, together with the Wednesday example
conjunct. -/
theorem get_date_for_day_of_week_spec_witness :
    getDay 6 = 3 ∧
    get_date_for_day_of_week 6 "monday" "this" = 11 ∧
    get_date_for_day_of_week 6 "monday" "last" = 4 ∧
    get_date_for_day_of_week 6 "monday" "on" < 6 := by
  have h := get_date_for_day_of_week_spec 6 "monday" "on" 1 (by decide)
  obtain ⟨ha, hb⟩ := h.2.2 (by decide) (by decide)
  refine ⟨by decide, ?_, ?_, (h.2.1 (by decide)).2.1⟩
  · rw [ha]; decide
  · rw [hb]; decide

/-- C3: the temporal resolver evaluates its four categories in the fixed
if/else-if priority order yesterday, today, explicit date literal,
day-of-week; only the first category whose pattern matches contributes, and
when the explicit-date pattern matches, the target is exactly the parse of
the captured literal — `none` when the literal fails to parse — with no
fall-through to the day-of-week category; finally the query result is the
located daily note of the target date, or empty when there is no target. -/
theorem check_time_related_query_priority :
    ∀ (today : Int) (corpus : List Doc) (q : String),
      (yesterday_test q = true → timeQueryTarget today q = some (today - 1)) ∧
      (yesterday_test q = false → today_test q = true →
        timeQueryTarget today q = some today) ∧
      (yesterday_test q = false → today_test q = false →
        ∀ cap, specific_date_capture q = some cap →
          timeQueryTarget today q = parse_date_string cap) ∧
      (yesterday_test q = false → today_test q = false →
        specific_date_capture q = none →
        ∀ pfxCap dayCap, day_of_week_match q = some (pfxCap, dayCap) →
          timeQueryTarget today q
            = some (get_date_for_day_of_week today dayCap
                (match pfxCap with | some p => jsTrim p | none => "last"))) ∧
      (timeQueryTarget today q = none →
        check_time_related_query today corpus q = []) ∧
      (∀ dt, timeQueryTarget today q = some dt →
        check_time_related_query today corpus q
          = match find_daily_note dt corpus with
            | some d => [d]
            | none => []) := by
  intro today corpus q
  refine ⟨?_, ?_, ?_, ?_, ?_, ?_⟩
  · intro h1
    simp [timeQueryTarget, h1]
  · intro h1 h2
    simp [timeQueryTarget, h1, h2]
  · intro h1 h2 cap hcap
    simp [timeQueryTarget, h1, h2, hcap]
  · intro h1 h2 h3 pfxCap dayCap hd
    simp [timeQueryTarget, h1, h2, h3, hd]
  · intro h
    simp [check_time_related_query, h]
  · intro dt h
    simp [check_time_related_query, h]

/-- C3 witness: on `"tell me about 2024-13-05 last monday"` the yesterday
and today categories fail, the explicit-date pattern matches with capture
`2024-13-05`, the capture fails to parse, and the resolver yields no date
and no files — even though the day-of-week pattern also matches the
query. -/
theorem check_time_related_query_priority_witness :
    timeQueryTarget 0 "tell me about 2024-13-05 last monday" = none ∧
    ¬ day_of_week_match "tell me about 2024-13-05 last monday" = none ∧
    check_time_related_query 0 [] "tell me about 2024-13-05 last monday" = [] := by
  have h := check_time_related_query_priority 0 [] "tell me about 2024-13-05 last monday"
  have h3 := h.2.2.1 (by decide) (by decide) "2024-13-05" (by decide)
  have ht : timeQueryTarget 0 "tell me about 2024-13-05 last monday" = none := by
    rw [h3]; decide
  exact ⟨ht, by decide, h.2.2.2.2.1 ht⟩

theorem findSome?_eq_none_iff {α β : Type} (g : α → Option β) :
    ∀ l : List α, l.findSome? g = none ↔ ∀ x ∈ l, g x = none := by
  intro l
  induction l with
  | nil => simp
  | cons x xs ih =>
      rw [List.findSome?]
      cases hx : g x with
      | none =>
          show List.findSome? g xs = none ↔ _
          rw [ih]
          constructor
          · intro h y hy
            rcases List.mem_cons.mp hy with rfl | hy
            · exact hx
            · exact h y hy
          · intro h y hy
            exact h y (List.mem_cons_of_mem _ hy)
      | some b => simp [hx]

theorem findSome?_eq_some_mem {α β : Type} (g : α → Option β) :
    ∀ (l : List α) (b : β), l.findSome? g = some b → ∃ x ∈ l, g x = some b := by
  intro l
  induction l with
  | nil => intro b h; simp [List.findSome?] at h
  | cons x xs ih =>
      intro b h
      rw [List.findSome?] at h
      cases hx : g x with
      | none =>
          rw [hx] at h
          obtain ⟨y, hy, hgy⟩ := ih b h
          exact ⟨y, List.mem_cons_of_mem _ hy, hgy⟩
      | some c =>
          rw [hx] at h
          cases h
          exact ⟨x, List.mem_cons_self _ _, hx⟩

theorem lookup_setAssoc :
    ∀ (m : List (String × Doc)) (k : String) (v : Doc) (q : String),
      lookupAssoc (setAssoc m k v) q
        = if k = q then some v else lookupAssoc m q := by
  intro m
  induction m with
  | nil => intro k v q; rfl
  | cons e rest ih =>
      intro k v q
      obtain ⟨k2, v2⟩ := e
      by_cases hk : k2 = k
      · rw [setAssoc, if_pos hk]
        by_cases hq : k2 = q
        · rw [lookupAssoc, if_pos hq, lookupAssoc, if_pos hq, if_pos (hk ▸ hq)]
        · rw [lookupAssoc, if_neg hq, lookupAssoc, if_neg hq, if_neg (hk ▸ hq)]
      · rw [setAssoc, if_neg hk]
        by_cases hq : k2 = q
        · have hkq : ¬ k = q := fun h => hk (h ▸ hq)
          rw [lookupAssoc, if_pos hq, if_neg hkq, lookupAssoc, if_pos hq]
        · rw [lookupAssoc, if_neg hq, ih, lookupAssoc, if_neg hq]

theorem fileMap_fold_lookup_mem :
    ∀ (corpus : List Doc) (m : List (String × Doc)) (q : String) (d : Doc),
      lookupAssoc (corpus.foldl (fun m f => setAssoc m (lowStr f.name) f) m) q
          = some d →
        d ∈ corpus ∨ lookupAssoc m q = some d := by
  intro corpus
  induction corpus with
  | nil => intro m q d h; exact Or.inr h
  | cons f fs ih =>
      intro m q d h
      rw [List.foldl_cons] at h
      rcases ih _ q d h with hmem | hbase
      · exact Or.inl (List.mem_cons_of_mem _ hmem)
      · rw [lookup_setAssoc] at hbase
        by_cases hq : lowStr f.name = q
        · rw [if_pos hq] at hbase
          cases hbase
          exact Or.inl (List.mem_cons_self _ _)
        · rw [if_neg hq] at hbase
          exact Or.inr hbase

theorem fileMap_fold_lookup_none :
    ∀ (corpus : List Doc) (m : List (String × Doc)) (q : String),
      lookupAssoc (corpus.foldl (fun m f => setAssoc m (lowStr f.name) f) m) q = none
        ↔ (lookupAssoc m q = none ∧ ∀ f ∈ corpus, ¬ lowStr f.name = q) := by
  intro corpus
  induction corpus with
  | nil => intro m q; simp
  | cons f fs ih =>
      intro m q
      rw [List.foldl_cons, ih]
      rw [lookup_setAssoc]
      by_cases hq : lowStr f.name = q
      · rw [if_pos hq]
        simp [hq]
      · rw [if_neg hq]
        constructor
        · rintro ⟨h1, h2⟩
          refine ⟨h1, fun g hg => ?_⟩
          rcases List.mem_cons.mp hg with rfl | hg
          · exact hq
          · exact h2 g hg
        · rintro ⟨h1, h2⟩
          exact ⟨h1, fun g hg => h2 g (List.mem_cons_of_mem _ hg)⟩

/-- C2: `find_daily_note` builds the candidate names `YYYY-MM-DD`,
`MM-DD-YYYY`, `daily/YYYY-MM-DD`, `journal/YYYY-MM-DD` in that fixed order,
performs a case-insensitive exact lookup of each candidate against the
lowercased-basename index, returns the first hit, returns `null` when no
candidate matches, and never fabricates content — any returned document is
an element of the corpus. -/
theorem find_daily_note_props :
    ∀ (t : Int) (corpus : List Doc),
      (find_daily_note t corpus = none ↔
        ∀ fmt ∈ dailyFormats t, lookupAssoc (fileMap corpus) (lowStr fmt) = none) ∧
      (∀ d, find_daily_note t corpus = some d → d ∈ corpus) ∧
      (∀ f1 f2 f3 f4, dailyFormats t = [f1, f2, f3, f4] →
        (∀ d, lookupAssoc (fileMap corpus) (lowStr f1) = some d →
          find_daily_note t corpus = some d) ∧
        (lookupAssoc (fileMap corpus) (lowStr f1) = none →
          ∀ d, lookupAssoc (fileMap corpus) (lowStr f2) = some d →
            find_daily_note t corpus = some d) ∧
        (lookupAssoc (fileMap corpus) (lowStr f1) = none →
          lookupAssoc (fileMap corpus) (lowStr f2) = none →
          ∀ d, lookupAssoc (fileMap corpus) (lowStr f3) = some d →
            find_daily_note t corpus = some d) ∧
        (lookupAssoc (fileMap corpus) (lowStr f1) = none →
          lookupAssoc (fileMap corpus) (lowStr f2) = none →
          lookupAssoc (fileMap corpus) (lowStr f3) = none →
          ∀ d, lookupAssoc (fileMap corpus) (lowStr f4) = some d →
            find_daily_note t corpus = some d)) := by
  intro t corpus
  refine ⟨?_, ?_, ?_⟩
  · exact findSome?_eq_none_iff _ (dailyFormats t)
  · intro d h
    obtain ⟨fmt, _, hfmt⟩ := findSome?_eq_some_mem _ (dailyFormats t) d h
    rcases fileMap_fold_lookup_mem corpus [] (lowStr fmt) d hfmt with hm | hbase
    · exact hm
    · exact absurd hbase (by simp [lookupAssoc])
  · intro f1 f2 f3 f4 heq
    refine ⟨?_, ?_, ?_, ?_⟩
    · intro d h1
      rw [find_daily_note, heq]
      simp [List.findSome?, h1]
    · intro h1 d h2
      rw [find_daily_note, heq]
      simp [List.findSome?, h1, h2]
    · intro h1 h2 d h3
      rw [find_daily_note, heq]
      simp [List.findSome?, h1, h2, h3]
    · intro h1 h2 h3 d h4
      rw [find_daily_note, heq]
      simp [List.findSome?, h1, h2, h3, h4]

/-- C2 witness: on a corpus containing `2024-01-05` the first candidate of
query date 2024-01-05 hits and that document is returned; on a corpus with
no matching name the locator returns `null`. -/
theorem find_daily_note_props_witness :
    find_daily_note (daysFromCivil 2024 1 5) [Doc.mk "2024-01-05" "note text"]
      = some (Doc.mk "2024-01-05" "note text") ∧
    find_daily_note (daysFromCivil 2024 1 5) [Doc.mk "Shopping List" "milk"]
      = none := by
  constructor
  · exact (((find_daily_note_props (daysFromCivil 2024 1 5)
      [Doc.mk "2024-01-05" "note text"]).2.2 "2024-01-05" "01-05-2024"
      "daily/2024-01-05" "journal/2024-01-05" (by decide)).1
      (Doc.mk "2024-01-05" "note text") (by decide))
  · exact (find_daily_note_props (daysFromCivil 2024 1 5)
      [Doc.mk "Shopping List" "milk"]).1.mpr (by decide)

theorem isDig_digChar : ∀ n : Nat, isDig (digChar n) = true := by
  intro n
  show isDig (Char.ofNat ('0'.toNat + n % 10)) = true
  have hk : n % 10 < 10 := Nat.mod_lt _ (by omega)
  set k := n % 10 with hk2
  interval_cases k <;> decide

theorem digVal_digChar : ∀ n : Nat, digVal (digChar n) = n % 10 := by
  intro n
  show digVal (Char.ofNat ('0'.toNat + n % 10)) = n % 10
  have hk : n % 10 < 10 := Nat.mod_lt _ (by omega)
  set k := n % 10 with hk2
  interval_cases k <;> decide

theorem digChar_ne_slash : ∀ n : Nat, ¬ digChar n = '/' := by
  intro n
  show ¬ Char.ofNat ('0'.toNat + n % 10) = '/'
  have hk : n % 10 < 10 := Nat.mod_lt _ (by omega)
  set k := n % 10 with hk2
  interval_cases k <;> decide

theorem digChar_ne_dash : ∀ n : Nat, ¬ digChar n = '-' := by
  intro n
  show ¬ Char.ofNat ('0'.toNat + n % 10) = '-'
  have hk : n % 10 < 10 := Nat.mod_lt _ (by omega)
  set k := n % 10 with hk2
  interval_cases k <;> decide

theorem digChar_mod (n : Nat) : digChar (n % 10) = digChar n := by
  show Char.ofNat ('0'.toNat + n % 10 % 10) = Char.ofNat ('0'.toNat + n % 10)
  exact congrArg Char.ofNat (by omega)

theorem natDigits_lt10 {n : Nat} (h : n < 10) : natDigits n = [digChar n] := by
  show natDigitsAux (n + 1) n = [digChar n]
  rw [natDigitsAux, if_pos h]

theorem natDigits_ge10 {n : Nat} (h10 : 10 ≤ n) (h100 : n < 100) :
    natDigits n = [digChar (n / 10), digChar n] := by
  obtain ⟨f, rfl⟩ : ∃ f, n = f + 1 := ⟨n - 1, by omega⟩
  show natDigitsAux (f + 1 + 1) (f + 1) = _
  rw [natDigitsAux, if_neg (by omega)]
  rw [natDigitsAux, if_pos (by omega)]
  rw [digChar_mod]
  rfl

theorem digitsVal_natDigits {n : Nat} (h : n < 100) :
    digitsVal (natDigits n) = n := by
  by_cases h10 : n < 10
  · rw [natDigits_lt10 h10]
    simp [digitsVal, digVal_digChar]
    omega
  · rw [natDigits_ge10 (by omega) h]
    simp [digitsVal, digVal_digChar]
    omega

theorem digitsVal_pad2 {n : Nat} (h : n < 100) : digitsVal (pad2Digits n) = n := by
  simp [digitsVal, pad2Digits, digVal_digChar]
  omega

theorem digitsVal_pad4 {n : Nat} (h : n < 10000) : digitsVal (pad4Digits n) = n := by
  simp [digitsVal, pad4Digits, digVal_digChar]
  omega

theorem mem_natDigits_digChar :
    ∀ (fuel n : Nat) (c : Char), c ∈ natDigitsAux fuel n → ∃ k, c = digChar k := by
  intro fuel
  induction fuel with
  | zero => intro n c h; simp [natDigitsAux] at h
  | succ f ih =>
      intro n c h
      rw [natDigitsAux] at h
      by_cases hn : n < 10
      · rw [if_pos hn] at h
        rcases List.mem_singleton.mp h with rfl
        exact ⟨n, rfl⟩
      · rw [if_neg hn] at h
        rcases List.mem_append.mp h with h | h
        · exact ih _ _ h
        · rcases List.mem_singleton.mp h with rfl
          exact ⟨n % 10, rfl⟩

theorem isoShapeL_length : ∀ l : List Char, isoShapeL l = true → l.length = 10 := by
  intro l h
  unfold isoShapeL at h
  split at h
  · simp
  · exact absurd h (by simp)

theorem splitOnChar_no_sep :
    ∀ (sep : Char) (a : List Char), (∀ c ∈ a, ¬ c = sep) →
      splitOnChar sep a = [a] := by
  intro sep a
  induction a with
  | nil => intro _; rfl
  | cons c rest ih =>
      intro h
      rw [splitOnChar, if_neg (h c (List.mem_cons_self _ _)),
        ih (fun d hd => h d (List.mem_cons_of_mem _ hd))]

theorem splitOnChar_append_sep :
    ∀ (sep : Char) (a rest : List Char), (∀ c ∈ a, ¬ c = sep) →
      splitOnChar sep (a ++ sep :: rest) = a :: splitOnChar sep rest := by
  intro sep a
  induction a with
  | nil =>
      intro rest _
      rw [List.nil_append, splitOnChar, if_pos rfl]
  | cons c a2 ih =>
      intro rest h
      rw [List.cons_append, splitOnChar, if_neg (h c (List.mem_cons_self _ _)),
        ih rest (fun d hd => h d (List.mem_cons_of_mem _ hd))]

theorem natDigits_length {n : Nat} (h : n < 100) :
    1 ≤ (natDigits n).length ∧ (natDigits n).length ≤ 2 := by
  by_cases h10 : n < 10
  · rw [natDigits_lt10 h10]; exact ⟨by simp, by simp⟩
  · rw [natDigits_ge10 (by omega) h]; exact ⟨by simp, by simp⟩

theorem natDigits_all_dig (n : Nat) :
    (natDigits n).all (fun c => isDig c) = true := by
  refine List.all_eq_true.mpr (fun c hc => ?_)
  obtain ⟨k, rfl⟩ := mem_natDigits_digChar _ _ c hc
  exact isDig_digChar k

theorem pad2_all_dig (n : Nat) :
    (pad2Digits n).all (fun c => isDig c) = true := by
  simp [pad2Digits, isDig_digChar]

theorem natDigits_no_sep {sep : Char} (hs : ∀ k, ¬ digChar k = sep) (n : Nat) :
    ∀ c ∈ natDigits n, ¬ c = sep := by
  intro c hc
  obtain ⟨k, rfl⟩ := mem_natDigits_digChar _ _ c hc
  exact hs k

theorem pad2_no_sep {sep : Char} (hs : ∀ k, ¬ digChar k = sep) (n : Nat) :
    ∀ c ∈ pad2Digits n, ¬ c = sep := by
  intro c hc
  rcases List.mem_cons.mp hc with rfl | hc
  · exact hs _
  · rcases List.mem_singleton.mp hc with rfl
    exact hs _

theorem pad4_all_dig (n : Nat) :
    (pad4Digits n).all (fun c => isDig c) = true := by
  simp [pad4Digits, isDig_digChar]

theorem pad4_no_sep {sep : Char} (hs : ∀ k, ¬ digChar k = sep) (n : Nat) :
    ∀ c ∈ pad4Digits n, ¬ c = sep := by
  intro c hc
  simp only [pad4Digits, List.mem_cons, List.mem_singleton, List.not_mem_nil,
    or_false] at hc
  rcases hc with rfl | rfl | rfl | rfl <;> exact hs _

theorem bool_false_true {b : Bool} (h1 : b = false) (h2 : b = true) : False := by
  rw [h1] at h2
  simp at h2

theorem isoShapeL_third_digit (a b c d e f g h i j : Char) :
    isoShapeL [a, b, c, d, e, f, g, h, i, j] = true → isDig c = true := by
  intro hq
  simp only [isoShapeL, decide_eq_true_eq] at hq
  exact hq.2.2.1

theorem iso_false_mdy4 {sep : Char} (hsdig : isDig sep = false)
    {m d y : Nat} (hm : m < 100) (hd : d < 100) :
    ¬ isoShapeL (natDigits m ++ sep :: (natDigits d ++ sep :: pad4Digits y))
        = true := by
  intro hq
  by_cases hm10 : m < 10
  · rw [natDigits_lt10 hm10] at hq
    by_cases hd10 : d < 10
    · rw [natDigits_lt10 hd10] at hq
      exact bool_false_true rfl hq
    · rw [natDigits_ge10 (by omega) hd] at hq
      exact bool_false_true rfl hq
  · rw [natDigits_ge10 (by omega) hm] at hq
    by_cases hd10 : d < 10
    · rw [natDigits_lt10 hd10] at hq
      exact bool_false_true rfl hq
    · rw [natDigits_ge10 (by omega) hd] at hq
      have h3 := isoShapeL_third_digit (digChar (m / 10)) (digChar m) sep
        (digChar (d / 10)) (digChar d) sep (digChar (y / 1000)) (digChar (y / 100))
        (digChar (y / 10)) (digChar y) hq
      exact bool_false_true hsdig h3

/-- C4 (amended): explicit date literals parse as follows — two-digit years
are interpreted as 2000 + yy in the slash and dash forms, four-digit years
as themselves (through the constructor's year coercion); an ISO
`YYYY-MM-DD` literal parses to its calendar date when the components form a
real calendar date and to no date otherwise (for example month 13); but the
`M/D/YY`, `M/D/YYYY`, `M-D-YY`, `M-D-YYYY` forms always parse, with
out-of-range components rolled over into adjacent months and years by the
`new Date(year, month, day)` constructor — they never yield "no date". -/
theorem parse_date_string_amended :
    ∀ (y m d yy : Nat), y < 10000 → m < 100 → d < 100 → yy < 100 →
      (parse_date_string (isoRender y m d)
        = if 1 ≤ Int.ofNat m ∧ Int.ofNat m ≤ 12 ∧ 1 ≤ Int.ofNat d ∧
             Int.ofNat d ≤ daysInMonth (Int.ofNat y) (Int.ofNat m)
          then some (daysFromCivil (Int.ofNat y) (Int.ofNat m) (Int.ofNat d))
          else none) ∧
      parse_date_string (mdyRender '/' m d yy)
        = some (jsMakeDate (2000 + Int.ofNat yy) (Int.ofNat m - 1) (Int.ofNat d)) ∧
      parse_date_string (mdyRender '-' m d yy)
        = some (jsMakeDate (2000 + Int.ofNat yy) (Int.ofNat m - 1) (Int.ofNat d)) ∧
      parse_date_string (mdy4Render '/' m d y)
        = some (jsMakeDate (Int.ofNat y) (Int.ofNat m - 1) (Int.ofNat d)) ∧
      parse_date_string (mdy4Render '-' m d y)
        = some (jsMakeDate (Int.ofNat y) (Int.ofNat m - 1) (Int.ofNat d)) := by
  intro y m d yy hy hm hd hyy
  have hslash : ∀ k, ¬ digChar k = '/' := digChar_ne_slash
  have hdash : ∀ k, ¬ digChar k = '-' := digChar_ne_dash
  refine ⟨?_, ?_, ?_, ?_, ?_⟩
  · -- ISO form
    have hshape : isoShapeL (isoRender y m d).data = true := by
      simp [isoRender, pad4Digits, pad2Digits, isoShapeL, isDig_digChar]
    rw [parse_date_string, if_pos hshape]
    have hdata : (isoRender y m d).data
        = [digChar (y / 1000), digChar (y / 100), digChar (y / 10), digChar y, '-',
           digChar (m / 10), digChar m, '-', digChar (d / 10), digChar d] := rfl
    rw [hdata]
    simp only [isoToDays]
    rw [show digitsVal [digChar (y / 1000), digChar (y / 100), digChar (y / 10), digChar y]
        = y from digitsVal_pad4 hy]
    rw [show digitsVal [digChar (m / 10), digChar m] = m from digitsVal_pad2 hm]
    rw [show digitsVal [digChar (d / 10), digChar d] = d from digitsVal_pad2 hd]
  · -- two-digit-year slash form
    have hdata : (mdyRender '/' m d yy).data
        = natDigits m ++ '/' :: (natDigits d ++ '/' :: pad2Digits yy) := by
      simp [mdyRender, List.append_assoc]
    have hsplit : splitOnChar '/' (mdyRender '/' m d yy).data
        = [natDigits m, natDigits d, pad2Digits yy] := by
      rw [hdata, splitOnChar_append_sep _ _ _ (natDigits_no_sep hslash m),
        splitOnChar_append_sep _ _ _ (natDigits_no_sep hslash d),
        splitOnChar_no_sep _ _ (pad2_no_sep hslash yy)]
    have hlen : (mdyRender '/' m d yy).data.length ≤ 8 := by
      have h1 := natDigits_length hm
      have h2 := natDigits_length hd
      rw [hdata]
      simp only [List.length_append, List.length_cons, pad2Digits, List.length_nil]
      omega
    have hiso : ¬ isoShapeL (mdyRender '/' m d yy).data = true := by
      intro hq
      exact absurd (isoShapeL_length _ hq) (by omega)
    have hshape : mdyShape '/' (mdyRender '/' m d yy).data = true := by
      rw [mdyShape, hsplit]
      have h1 := natDigits_length hm
      have h2 := natDigits_length hd
      have hp2 : (pad2Digits yy).length = 2 := rfl
      simp [natDigits_all_dig, pad2_all_dig, hp2]
      omega
    rw [parse_date_string, if_neg hiso, if_pos hshape]
    rw [mdyToDays, hsplit]
    dsimp only
    rw [if_pos (show (pad2Digits yy).length = 2 from rfl)]
    rw [digitsVal_natDigits hm, digitsVal_natDigits hd, digitsVal_pad2 hyy]
  · -- two-digit-year dash form
    have hdata : (mdyRender '-' m d yy).data
        = natDigits m ++ '-' :: (natDigits d ++ '-' :: pad2Digits yy) := by
      simp [mdyRender, List.append_assoc]
    have hsplit : splitOnChar '-' (mdyRender '-' m d yy).data
        = [natDigits m, natDigits d, pad2Digits yy] := by
      rw [hdata, splitOnChar_append_sep _ _ _ (natDigits_no_sep hdash m),
        splitOnChar_append_sep _ _ _ (natDigits_no_sep hdash d),
        splitOnChar_no_sep _ _ (pad2_no_sep hdash yy)]
    have hlen : (mdyRender '-' m d yy).data.length ≤ 8 := by
      have h1 := natDigits_length hm
      have h2 := natDigits_length hd
      rw [hdata]
      simp only [List.length_append, List.length_cons, pad2Digits, List.length_nil]
      omega
    have hiso : ¬ isoShapeL (mdyRender '-' m d yy).data = true := by
      intro hq
      exact absurd (isoShapeL_length _ hq) (by omega)
    have hnoslash : ∀ c ∈ (mdyRender '-' m d yy).data, ¬ c = '/' := by
      rw [hdata]
      intro c hc
      rcases List.mem_append.mp hc with hc | hc
      · exact natDigits_no_sep hslash m c hc
      · rcases List.mem_cons.mp hc with rfl | hc
        · decide
        · rcases List.mem_append.mp hc with hc | hc
          · exact natDigits_no_sep hslash d c hc
          · rcases List.mem_cons.mp hc with rfl | hc
            · decide
            · exact pad2_no_sep hslash yy c hc
    have hslashShape : ¬ mdyShape '/' (mdyRender '-' m d yy).data = true := by
      rw [mdyShape, splitOnChar_no_sep _ _ hnoslash]
      simp
    have hshape : mdyShape '-' (mdyRender '-' m d yy).data = true := by
      rw [mdyShape, hsplit]
      have h1 := natDigits_length hm
      have h2 := natDigits_length hd
      have hp2 : (pad2Digits yy).length = 2 := rfl
      simp [natDigits_all_dig, pad2_all_dig, hp2]
      omega
    rw [parse_date_string, if_neg hiso, if_neg hslashShape, if_pos hshape]
    rw [mdyToDays, hsplit]
    dsimp only
    rw [if_pos (show (pad2Digits yy).length = 2 from rfl)]
    rw [digitsVal_natDigits hm, digitsVal_natDigits hd, digitsVal_pad2 hyy]
  · -- four-digit-year slash form
    have hdata : (mdy4Render '/' m d y).data
        = natDigits m ++ '/' :: (natDigits d ++ '/' :: pad4Digits y) := by
      simp [mdy4Render, List.append_assoc]
    have hsplit : splitOnChar '/' (mdy4Render '/' m d y).data
        = [natDigits m, natDigits d, pad4Digits y] := by
      rw [hdata, splitOnChar_append_sep _ _ _ (natDigits_no_sep hslash m),
        splitOnChar_append_sep _ _ _ (natDigits_no_sep hslash d),
        splitOnChar_no_sep _ _ (pad4_no_sep hslash y)]
    have hiso : ¬ isoShapeL (mdy4Render '/' m d y).data = true := by
      rw [hdata]
      exact iso_false_mdy4 (by decide) hm hd
    have hshape : mdyShape '/' (mdy4Render '/' m d y).data = true := by
      rw [mdyShape, hsplit]
      have h1 := natDigits_length hm
      have h2 := natDigits_length hd
      have hp4 : (pad4Digits y).length = 4 := rfl
      simp [natDigits_all_dig, pad4_all_dig, hp4]
      omega
    rw [parse_date_string, if_neg hiso, if_pos hshape]
    rw [mdyToDays, hsplit]
    dsimp only
    rw [if_neg (show ¬ (pad4Digits y).length = 2 from by simp [pad4Digits])]
    rw [digitsVal_natDigits hm, digitsVal_natDigits hd, digitsVal_pad4 hy]
  · -- four-digit-year dash form
    have hdata : (mdy4Render '-' m d y).data
        = natDigits m ++ '-' :: (natDigits d ++ '-' :: pad4Digits y) := by
      simp [mdy4Render, List.append_assoc]
    have hsplit : splitOnChar '-' (mdy4Render '-' m d y).data
        = [natDigits m, natDigits d, pad4Digits y] := by
      rw [hdata, splitOnChar_append_sep _ _ _ (natDigits_no_sep hdash m),
        splitOnChar_append_sep _ _ _ (natDigits_no_sep hdash d),
        splitOnChar_no_sep _ _ (pad4_no_sep hdash y)]
    have hiso : ¬ isoShapeL (mdy4Render '-' m d y).data = true := by
      rw [hdata]
      exact iso_false_mdy4 (by decide) hm hd
    have hnoslash : ∀ c ∈ (mdy4Render '-' m d y).data, ¬ c = '/' := by
      rw [hdata]
      intro c hc
      rcases List.mem_append.mp hc with hc | hc
      · exact natDigits_no_sep hslash m c hc
      · rcases List.mem_cons.mp hc with rfl | hc
        · decide
        · rcases List.mem_append.mp hc with hc | hc
          · exact natDigits_no_sep hslash d c hc
          · rcases List.mem_cons.mp hc with rfl | hc
            · decide
            · exact pad4_no_sep hslash y c hc
    have hslashShape : ¬ mdyShape '/' (mdy4Render '-' m d y).data = true := by
      rw [mdyShape, splitOnChar_no_sep _ _ hnoslash]
      simp
    have hshape : mdyShape '-' (mdy4Render '-' m d y).data = true := by
      rw [mdyShape, hsplit]
      have h1 := natDigits_length hm
      have h2 := natDigits_length hd
      have hp4 : (pad4Digits y).length = 4 := rfl
      simp [natDigits_all_dig, pad4_all_dig, hp4]
      omega
    rw [parse_date_string, if_neg hiso, if_neg hslashShape, if_pos hshape]
    rw [mdyToDays, hsplit]
    dsimp only
    rw [if_neg (show ¬ (pad4Digits y).length = 2 from by simp [pad4Digits])]
    rw [digitsVal_natDigits hm, digitsVal_natDigits hd, digitsVal_pad4 hy]

/-- C4 witness: the amended theorem applied at month 13 — the ISO literal
`2024-13-05` parses to no date, while the slash literals `13/5/24`
(two-digit year 24 meaning 2024) and `13/5/2024` (four-digit year) both
roll the month over to 2025-01-05. -/
theorem parse_date_string_amended_witness :
    parse_date_string "2024-13-05" = none ∧
    parse_date_string "13/5/24" = some (daysFromCivil 2025 1 5) ∧
    parse_date_string "13/5/2024" = some (daysFromCivil 2025 1 5) ∧
    parse_date_string "13-5-2024" = some (daysFromCivil 2025 1 5) := by
  have h := parse_date_string_amended 2024 13 5 24 (by omega) (by omega) (by omega)
    (by omega)
  have e1 : isoRender 2024 13 5 = "2024-13-05" := by decide
  have e2 : mdyRender '/' 13 5 24 = "13/5/24" := by decide
  have e3 : mdy4Render '/' 13 5 2024 = "13/5/2024" := by decide
  have e4 : mdy4Render '-' 13 5 2024 = "13-5-2024" := by decide
  refine ⟨?_, ?_, ?_, ?_⟩
  · have h1 := h.1
    rw [e1] at h1
    rw [h1]
    decide
  · have h2 := h.2.1
    rw [e2] at h2
    rw [h2]
    decide
  · have h4 := h.2.2.2.1
    rw [e3] at h4
    rw [h4]
    decide
  · have h5 := h.2.2.2.2
    rw [e4] at h5
    rw [h5]
    decide
